import Mathlib

/-! erdlib: textual ERD notation

A verification development for `erdlib.go`.  The program declares its grammar in the struct
tags of `ERDExpression`, `Ref`, `MinMax` and `Attribute`, and its lexical rules in the regular
expression handed to the lexer in `CreateParser`; `Parse` runs the two on one line of text.

The embedding follows that text: one Lean function per tagged struct, one per lexer rule set,
the Go methods as Lean functions on the same records.  Go pointers (`*MinMax`, `*string`) are
`Option`s, a nil dereference is `none`.
-/

namespace Erdlib

/-! ## The data model (`erdlib.go`, the four structs) -/

/-- MinMax is the cardinality given in `[min,max]` notation: two strings. -/
structure MinMax where
  Min : String
  Max : String
deriving DecidableEq, Repr

/-- Attribute has two nullable fields: `PK *string` and `AttrName *string`. -/
structure Attribute where
  PK : Option String
  AttrName : Option String
deriving DecidableEq, Repr

/-- Ref is an attribute together with a nullable cardinality, `Cardinality *MinMax`. -/
structure Ref where
  RefName : Attribute
  Cardinality : Option MinMax
deriving DecidableEq, Repr

/-- ERDExpression is the root: a name and the list of members. -/
structure ERDExpression where
  Name : String
  EntitiesAndAttributes : List Ref
deriving DecidableEq, Repr

/-- IsEntityRef is `r.Cardinality != nil`. -/
def Ref.IsEntityRef (r : Ref) : Bool :=
  r.Cardinality.isSome

/-- IsPK is `attr.PK != nil`. -/
def Attribute.IsPK (attr : Attribute) : Bool :=
  attr.PK.isSome

/-- Name dereferences `PK` when `IsPK()` holds and `AttrName` otherwise; dereferencing a nil
pointer is `none`. -/
def Attribute.Name (attr : Attribute) : Option String :=
  if attr.IsPK then attr.PK else attr.AttrName

/-- Name of a Ref is `r.RefName.Name()`. -/
def Ref.Name (r : Ref) : Option String :=
  r.RefName.Name

/-- The loop of `IsRelationship`: `for _, r := range ...` returning `true` at the first member
with `r.IsEntityRef()`, and `false` after the last one. -/
def isRelationshipLoop : List Ref → Bool
  | [] => false
  | r :: rs => if r.IsEntityRef then true else isRelationshipLoop rs

/-- IsRelationship ranges over `e.EntitiesAndAttributes`. -/
def ERDExpression.IsRelationship (e : ERDExpression) : Bool :=
  isRelationshipLoop e.EntitiesAndAttributes

/-- IsEntityType is `!e.IsRelationship()`. -/
def ERDExpression.IsEntityType (e : ERDExpression) : Bool :=
  !e.IsRelationship

/-! ## The lexer (`CreateParser`, the regular expression)

```
(\s+) | (?P<Ident>[a-zA-Z][a-zA-Z0-9]*) | (?P<Operators>->|[,()_\[\]\*]) | (?P<CardinalityNum>[0-9]+)
```

The regular expression is matched at the head of the remaining input; the unnamed group is
matched and dropped, a named group gives a token of that name, and when nothing matches at the
head the lexer stops with an error naming the position and the character found there. -/

/-- The three named groups of the regular expression. -/
inductive TokenType where
  | Ident
  | Operators
  | CardinalityNum
deriving DecidableEq, Repr

/-- A token: the group that matched and the matched text. -/
structure Token where
  kind : TokenType
  value : String
deriving DecidableEq, Repr

/-- Position in the input, as the lexer counts it: `Offset` from 0, `Line` and `Column` from 1. -/
structure Position where
  Offset : Nat
  Line : Nat
  Column : Nat
deriving DecidableEq, Repr

/-- The two ways `Parse` fails: at the lexing stage (`invalidToken`: no rule matches the
character at a position) or at the parsing stage (`unexpectedToken`: the tokens do not fit the
grammar).  `fuelExhausted` is the loop budget of this embedding running out; `Parse` never
returns it (`Parse_ne_fuelExhausted`). -/
inductive ParseError where
  | invalidToken (pos : Position) (rune : Char)
  | unexpectedToken
  | fuelExhausted
deriving DecidableEq, Repr

/-- Go's `\s` is the class `[\t\n\f\r ]`. -/
def isSpace (c : Char) : Bool :=
  c = Char.ofNat 9 || c = Char.ofNat 10 || c = Char.ofNat 12 || c = Char.ofNat 13 || c = ' '

/-- The one-character alternatives of the `Operators` group: `[,()_\[\]\*]`. -/
def isOperatorChar (c : Char) : Bool :=
  c = ',' || c = '(' || c = ')' || c = '_' || c = '[' || c = ']' || c = '*'

/-- One match of the regular expression at the head of the input: the group (`none` for the
unnamed whitespace group), the matched text and the input left.  `none` when no alternative
matches at the head.  The alternatives start with different characters, so the first character
selects the alternative; `+` and `*` are greedy. -/
def matchHead : List Char → Option (Option TokenType × List Char × List Char)
  | [] => none
  | c :: cs =>
    if isSpace c then
      some (none, c :: cs.takeWhile isSpace, cs.dropWhile isSpace)
    else if c.isAlpha then
      some (some .Ident, c :: cs.takeWhile Char.isAlphanum, cs.dropWhile Char.isAlphanum)
    else if c = '-' then
      match cs with
      | d :: rest => if d = '>' then some (some .Operators, [c, d], rest) else none
      | [] => none
    else if isOperatorChar c then
      some (some .Operators, [c], cs)
    else if c.isDigit then
      some (some .CardinalityNum, c :: cs.takeWhile Char.isDigit, cs.dropWhile Char.isDigit)
    else
      none

/-- The lexer's position update after a match: the offset grows by the length of the match
(matched text is ASCII, one byte per character); a match without a line break moves the column
by its length, a match with line breaks sets the column to the number of characters from the
last line break on. -/
def Position.advance (p : Position) (lexeme : List Char) : Position :=
  let lines := lexeme.count (Char.ofNat 10)
  { Offset := p.Offset + lexeme.length
    Line := p.Line + lines
    Column := if lines = 0 then p.Column + lexeme.length
              else (lexeme.reverse.takeWhile (fun c => c != Char.ofNat 10)).length + 1 }

/-- The lexer's loop `for len(r.b) != 0`: match at the head, move on by the length of the
match, emit a token unless the unnamed group matched.  Every match is non-empty, so a budget of
the input's length is never used up. -/
def lexLoop : Nat → Position → List Char → Except ParseError (List Token)
  | _, _, [] => .ok []
  | 0, _, _ :: _ => .error .fuelExhausted
  | n + 1, pos, c :: cs =>
    match matchHead (c :: cs) with
    | none => .error (.invalidToken pos c)
    | some (none, lexeme, rest) => lexLoop n (pos.advance lexeme) rest
    | some (some k, lexeme, rest) =>
      match lexLoop n (pos.advance lexeme) rest with
      | .error e => .error e
      | .ok toks => .ok (⟨k, String.mk lexeme⟩ :: toks)

/-- All tokens of an input line: the line is lexed to its end before the grammar is applied,
so a character no rule matches gives a lexing error whatever the tokens before it. -/
def tokenize (s : String) : Except ParseError (List Token) :=
  lexLoop s.data.length ⟨0, 1, 1⟩ s.data

/-- The texts a named group of the regular expression matches: `[a-zA-Z][a-zA-Z0-9]*`,
`->|[,()_\[\]\*]`, `[0-9]+`. -/
def lexemeOfKind : TokenType → List Char → Bool
  | .Ident, c :: cs => c.isAlpha && cs.all Char.isAlphanum
  | .Operators, [c] => isOperatorChar c
  | .Operators, [c, d] => c = '-' && d = '>'
  | .CardinalityNum, c :: cs => c.isDigit && cs.all Char.isDigit
  | _, _ => false

/-- A token whose text is one its group matches. -/
def Token.wellFormed (t : Token) : Prop :=
  lexemeOfKind t.kind t.value.data = true

/-! ## The grammar (the struct tags)

A quoted string in a tag matches a token by its text; `@Name` matches a token of that group and
captures its text into the field; `@@` parses the field's own struct.  Every choice of the
grammar (`|`, `?`, `*`) is between branches that start with different tokens, so the next
token selects the branch.  Once the first element of a sequence has matched, a mismatch later
in the sequence makes the parse fail: where the parser steps back out of such a branch, the
token it returns to is one that nothing after the branch accepts.  What a parsing error says
(the token expected, the token found) is not part of the embedding: every parsing error is
`unexpectedToken`. -/

/-- A quoted literal of the grammar: the next token has this text. -/
def expectLit (lit : String) : List Token → Except ParseError (List Token)
  | [] => .error .unexpectedToken
  | t :: ts => if t.value = lit then .ok ts else .error .unexpectedToken

/-- Attribute: `("_" @Ident "_"` on `PK`, `| @Ident )` on `AttrName`. -/
def parseAttribute : List Token → Except ParseError (Attribute × List Token)
  | [] => .error .unexpectedToken
  | t :: ts =>
    if t.value = "_" then
      match ts with
      | [] => .error .unexpectedToken
      | x :: ts1 =>
        if x.kind = .Ident then
          match expectLit "_" ts1 with
          | .error e => .error e
          | .ok ts2 => .ok (⟨some x.value, none⟩, ts2)
        else .error .unexpectedToken
    else if t.kind = .Ident then .ok (⟨none, some t.value⟩, ts)
    else .error .unexpectedToken

/-- One bound of MinMax: `(@CardinalityNum | @"*")`. -/
def parseBound : List Token → Except ParseError (String × List Token)
  | [] => .error .unexpectedToken
  | t :: ts =>
    if t.kind = .CardinalityNum then .ok (t.value, ts)
    else if t.value = "*" then .ok (t.value, ts)
    else .error .unexpectedToken

/-- MinMax: `(@CardinalityNum | @"*") ","` on `Min`, `(@CardinalityNum | @"*")` on `Max`. -/
def parseMinMax (ts : List Token) : Except ParseError (MinMax × List Token) :=
  match parseBound ts with
  | .error e => .error e
  | .ok (mn, ts1) =>
    match expectLit "," ts1 with
    | .error e => .error e
    | .ok ts2 =>
      match parseBound ts2 with
      | .error e => .error e
      | .ok (mx, ts3) => .ok (⟨mn, mx⟩, ts3)

/-- The optional group of Ref: `("[" @@ "]")?` on `Cardinality`. -/
def parseCardinality : List Token → Except ParseError (Option MinMax × List Token)
  | [] => .ok (none, [])
  | t :: ts =>
    if t.value = "[" then
      match parseMinMax ts with
      | .error e => .error e
      | .ok (mm, ts1) =>
        match expectLit "]" ts1 with
        | .error e => .error e
        | .ok ts2 => .ok (some mm, ts2)
    else .ok (none, t :: ts)

/-- Ref: `@@` on `RefName`, then the optional group on `Cardinality`. -/
def parseRef (ts : List Token) : Except ParseError (Ref × List Token) :=
  match parseAttribute ts with
  | .error e => .error e
  | .ok (a, ts1) =>
    match parseCardinality ts1 with
    | .error e => .error e
    | .ok (c, ts2) => .ok (⟨a, c⟩, ts2)

/-- The repetition `("," @@)*` of ERDExpression: as long as a comma follows, one more Ref.
Each round takes at least two tokens, so a budget of the number of tokens left is never
used up. -/
def parseMoreRefs : Nat → List Token → Except ParseError (List Ref × List Token)
  | _, [] => .ok ([], [])
  | 0, _ :: _ => .error .fuelExhausted
  | n + 1, t :: ts =>
    if t.value = "," then
      match parseRef ts with
      | .error e => .error e
      | .ok (r, ts1) =>
        match parseMoreRefs n ts1 with
        | .error e => .error e
        | .ok (rs, ts2) => .ok (r :: rs, ts2)
    else .ok ([], t :: ts)

/-- ERDExpression: `@Ident` on `Name`, `"("@@ ("," @@)* ")"` on `EntitiesAndAttributes`. -/
def parseERDExpression : List Token → Except ParseError (ERDExpression × List Token)
  | [] => .error .unexpectedToken
  | n :: ts =>
    if n.kind = .Ident then
      match expectLit "(" ts with
      | .error e => .error e
      | .ok ts1 =>
        match parseRef ts1 with
        | .error e => .error e
        | .ok (r, ts2) =>
          match parseMoreRefs ts2.length ts2 with
          | .error e => .error e
          | .ok (rs, ts3) =>
            match expectLit ")" ts3 with
            | .error e => .error e
            | .ok ts4 => .ok (⟨n.value, r :: rs⟩, ts4)
    else .error .unexpectedToken

/-- The grammar applied to a whole token sequence: the root production, then end of input. -/
def parseTokens (toks : List Token) : Except ParseError ERDExpression :=
  match parseERDExpression toks with
  | .error e => .error e
  | .ok (e, rest) =>
    match rest with
    | [] => .ok e
    | _ :: _ => .error .unexpectedToken

/-- Parse: `parser.parser.ParseString(s, erdElem)`; on an error `nil, err`, else the filled
`erdElem`. -/
def Parse (s : String) : Except ParseError ERDExpression :=
  match tokenize s with
  | .error e => .error e
  | .ok toks => parseTokens toks

/-- The two values the Go function `Parse` returns: `nil, err` when `ParseString` reports an
error, `erdElem, nil` otherwise. -/
def Parse.values (s : String) : Option ERDExpression × Option ParseError :=
  match Parse s with
  | .error err => (none, some err)
  | .ok erdElem => (some erdElem, none)

/-! ## The grammar of the specification

```
ERDExpression := Ident "(" Ref ("," Ref)* ")"
Ref := Attribute ("[" MinMax "]")?      Attribute := "_" Ident "_" | Ident
MinMax := Bound "," Bound               Bound := Number | "*"
```

`Ident` is a token of the group `Ident`, `Number` one of the group `CardinalityNum`, a quoted
terminal a token with that text. -/

namespace Spec

/-- Bound := Number | "*". -/
def IsBound (t : Token) : Prop :=
  t.kind = .CardinalityNum ∨ t.value = "*"

/-- Attribute := "_" Ident "_" | Ident. -/
inductive GAttribute : List Token → Prop
  | pk (u x v : Token) : u.value = "_" → x.kind = .Ident → v.value = "_" → GAttribute [u, x, v]
  | plain (x : Token) : x.kind = .Ident → GAttribute [x]

/-- MinMax := Bound "," Bound. -/
inductive GMinMax : List Token → Prop
  | mk (a c b : Token) : IsBound a → c.value = "," → IsBound b → GMinMax [a, c, b]

/-- Ref := Attribute ("[" MinMax "]")?. -/
inductive GRef : List Token → Prop
  | attr (as : List Token) : GAttribute as → GRef as
  | card (as : List Token) (l : Token) (mm : List Token) (r : Token) :
      GAttribute as → l.value = "[" → GMinMax mm → r.value = "]" → GRef (as ++ l :: mm ++ [r])

/-- The member list Ref ("," Ref)*. -/
inductive GRefList : List Token → Prop
  | one (rs : List Token) : GRef rs → GRefList rs
  | cons (rs : List Token) (c : Token) (rest : List Token) :
      GRef rs → c.value = "," → GRefList rest → GRefList (rs ++ c :: rest)

/-- ERDExpression := Ident "(" Ref ("," Ref)* ")". -/
inductive GERDExpression : List Token → Prop
  | mk (n l : Token) (body : List Token) (r : Token) :
      n.kind = .Ident → l.value = "(" → GRefList body → r.value = ")" →
      GERDExpression (n :: l :: body ++ [r])

/-! The input notation of the specification: `Name(member, member, ...)`, each member written
`attr`, `_attr_`, `attr[min,max]` or `_attr_[min,max]`, `min` and `max` a number or `*`. -/

/-- A bound as written: a number, given by its digits, or `*`. -/
inductive Bound where
  | number (digits : String)
  | star
deriving DecidableEq, Repr

/-- A member as written: between underscores or not, its identifier, and its bracketed bounds
when it has them. -/
structure Member where
  pk : Bool
  ident : String
  card : Option (Bound × Bound)
deriving DecidableEq, Repr

/-- A structural token with the given text. -/
def op (text : String) : Token :=
  ⟨.Operators, text⟩

/-- The token of a written bound. -/
def Bound.token : Bound → Token
  | .number digits => ⟨.CardinalityNum, digits⟩
  | .star => op "*"

/-- The text of a written bound. -/
def Bound.text : Bound → String
  | .number digits => digits
  | .star => "*"

/-- The tokens of one written member. -/
def Member.tokens (m : Member) : List Token :=
  (if m.pk then [op "_", ⟨.Ident, m.ident⟩, op "_"] else [⟨.Ident, m.ident⟩]) ++
    (match m.card with
     | none => []
     | some (lo, hi) => [op "[", lo.token, op ",", hi.token, op "]"])

/-- The tokens of the members after the first: each preceded by a comma. -/
def moreMemberTokens : List Member → List Token
  | [] => []
  | m :: ms => op "," :: m.tokens ++ moreMemberTokens ms

/-- The tokens of a comma-separated member list. -/
def memberListTokens : List Member → List Token
  | [] => []
  | m :: ms => m.tokens ++ moreMemberTokens ms

/-- The tokens of the input `name(members)`. -/
def inputTokens (name : String) (ms : List Member) : List Token :=
  ⟨.Ident, name⟩ :: op "(" :: memberListTokens ms ++ [op ")"]

/-- The Ref a written member stands for: its identifier in `PK` or in `AttrName`, its bounds
as the cardinality. -/
def Member.ref (m : Member) : Ref :=
  { RefName := if m.pk then ⟨some m.ident, none⟩ else ⟨none, some m.ident⟩
    Cardinality := match m.card with
      | none => none
      | some (lo, hi) => some ⟨lo.text, hi.text⟩ }

/-- The text of an identifier: a letter followed by letters and digits. -/
def IsIdentText (x : String) : Prop :=
  ∃ c cs, x.data = c :: cs ∧ c.isAlpha = true ∧ ∀ d ∈ cs, d.isAlphanum = true

/-- The text of a bound: `*`, or a non-empty string of the digits 0 to 9. -/
def IsBoundText (b : String) : Prop :=
  b = "*" ∨ (b.data ≠ [] ∧ ∀ c ∈ b.data, c.isDigit = true)

/-! The lexical rules of the specification: whitespace, identifier, structural token, number;
at each position the longest match wins, and a position where no rule matches ends the scan
with an error. -/

/-- The texts the four lexical rules match: one or more whitespace characters; a letter
followed by letters and digits; one of the eight structural tokens; one or more digits. -/
def RuleMatches (lx : List Char) : Prop :=
  (lx ≠ [] ∧ ∀ c ∈ lx, isSpace c = true) ∨
  (∃ c cs, lx = c :: cs ∧ c.isAlpha = true ∧ ∀ d ∈ cs, d.isAlphanum = true) ∨
  lx ∈ [['-', '>'], [','], ['('], [')'], ['_'], ['['], [']'], ['*']] ∨
  (lx ≠ [] ∧ ∀ c ∈ lx, c.isDigit = true)

/-- No rule matches at the head of `cs`: no text at the head of `cs` is matched by a rule. -/
def NoRuleAt (cs : List Char) : Prop :=
  ∀ lx rest, cs = lx ++ rest → ¬ RuleMatches lx

/-- The longest match at the head of `cs`. -/
def LongestMatch (cs lx : List Char) : Prop :=
  RuleMatches lx ∧ (∃ rest, cs = lx ++ rest) ∧
    ∀ lx2 rest2, cs = lx2 ++ rest2 → RuleMatches lx2 → lx2.length ≤ lx.length

/-- Scanning left to right: `Scanned pre rest` when the scan of the input `pre ++ rest` reaches
the position between `pre` and `rest`, having split `pre` into longest matches. -/
inductive Scanned : List Char → List Char → Prop
  | start (rest : List Char) : Scanned [] rest
  | step (lx pre rest : List Char) :
      LongestMatch (lx ++ (pre ++ rest)) lx → Scanned pre rest → Scanned (lx ++ pre) rest

/-- The position of the character that follows `pre` in an input: the offset counts the
characters before it from 0, lines and columns count from 1. -/
def positionAfter (pre : List Char) : Position :=
  { Offset := pre.length
    Line := 1 + pre.count (Char.ofNat 10)
    Column := (pre.reverse.takeWhile (fun c => c != Char.ofNat 10)).length + 1 }

/-- A position between tokens: `TokenBoundary pre post` when, in the input `pre ++ post`, the
text `pre` is made of whole longest matches and single whitespace characters, so that the
position between `pre` and `post` is inside no identifier, number or structural token. -/
inductive TokenBoundary : List Char → List Char → Prop
  | here (post : List Char) : TokenBoundary [] post
  | space (c : Char) (pre post : List Char) :
      isSpace c = true → TokenBoundary pre post → TokenBoundary (c :: pre) post
  | lexeme (lx pre post : List Char) :
      LongestMatch (lx ++ (pre ++ post)) lx → TokenBoundary pre post →
      TokenBoundary (lx ++ pre) post

/-- The second input is the first with whitespace inserted at a position between tokens. -/
def InsertsWhitespace (s1 s2 : String) : Prop :=
  ∃ pre ws post, s1.data = pre ++ post ∧ s2.data = pre ++ (ws ++ post) ∧
    TokenBoundary pre post ∧ ∀ c ∈ ws, isSpace c = true

/-- Two inputs that differ only by whitespace inserted or removed between tokens, at any
number of places. -/
def WhitespaceVariant : String → String → Prop :=
  Relation.EqvGen InsertsWhitespace

/-- An error without the position it reports. -/
def errorWithoutPosition : ParseError → ParseError
  | .invalidToken _ rune => .invalidToken ⟨0, 0, 0⟩ rune
  | .unexpectedToken => .unexpectedToken
  | .fuelExhausted => .fuelExhausted

/-- A result without the position its error reports. -/
def withoutPosition {α : Type} : Except ParseError α → Except ParseError α
  | .error e => .error (errorWithoutPosition e)
  | .ok a => .ok a

/-- The lexer's result on a text, without the position of its error. -/
def lexOutcome (cs : List Char) : Except ParseError (List Token) :=
  withoutPosition (lexLoop cs.length ⟨0, 1, 1⟩ cs)

/-- The texts of a token sequence, one after the other. -/
def tokenText : List Token → List Char
  | [] => []
  | t :: ts => t.value.data ++ tokenText ts

end Spec

/-! ## What the grammar functions consume -/

theorem expectLit_ok {lit : String} {ts rest : List Token} (h : expectLit lit ts = .ok rest) :
    ∃ t, ts = t :: rest ∧ t.value = lit := by
  cases ts with
  | nil => simp [expectLit] at h
  | cons t ts =>
    simp only [expectLit] at h
    split at h
    · rename_i hv
      cases h
      exact ⟨t, rfl, hv⟩
    · cases h

theorem parseAttribute_ok {ts rest : List Token} {a : Attribute}
    (h : parseAttribute ts = .ok (a, rest)) :
    ∃ pre, ts = pre ++ rest ∧ Spec.GAttribute pre := by
  cases ts with
  | nil => simp [parseAttribute] at h
  | cons t ts =>
    simp only [parseAttribute] at h
    split at h
    · rename_i hu
      cases ts with
      | nil => simp at h
      | cons x ts1 =>
        simp only at h
        split at h
        · rename_i hx
          cases hl : expectLit "_" ts1 with
          | error e => simp [hl] at h
          | ok ts2 =>
            simp only [hl] at h
            obtain ⟨v, rfl, hv⟩ := expectLit_ok hl
            cases h
            exact ⟨[t, x, v], rfl, .pk t x v hu hx hv⟩
        · cases h
    · split at h
      · rename_i hx
        cases h
        exact ⟨[t], rfl, .plain t hx⟩
      · cases h

theorem parseBound_ok {ts rest : List Token} {b : String} (h : parseBound ts = .ok (b, rest)) :
    ∃ t, ts = t :: rest ∧ Spec.IsBound t ∧ b = t.value := by
  cases ts with
  | nil => simp [parseBound] at h
  | cons t ts =>
    simp only [parseBound] at h
    split at h
    · rename_i hk
      cases h
      exact ⟨t, rfl, Or.inl hk, rfl⟩
    · split at h
      · rename_i hv
        cases h
        exact ⟨t, rfl, Or.inr hv, rfl⟩
      · cases h

theorem parseMinMax_ok {ts rest : List Token} {mm : MinMax}
    (h : parseMinMax ts = .ok (mm, rest)) :
    ∃ pre, ts = pre ++ rest ∧ Spec.GMinMax pre := by
  simp only [parseMinMax] at h
  cases h1 : parseBound ts with
  | error e => simp [h1] at h
  | ok p1 =>
    obtain ⟨mn, ts1⟩ := p1
    simp only [h1] at h
    cases h2 : expectLit "," ts1 with
    | error e => simp [h2] at h
    | ok ts2 =>
      simp only [h2] at h
      cases h3 : parseBound ts2 with
      | error e => simp [h3] at h
      | ok p3 =>
        obtain ⟨mx, ts3⟩ := p3
        simp only [h3] at h
        cases h
        obtain ⟨a, rfl, ha, -⟩ := parseBound_ok h1
        obtain ⟨c, rfl, hc⟩ := expectLit_ok h2
        obtain ⟨b, rfl, hb, -⟩ := parseBound_ok h3
        exact ⟨[a, c, b], rfl, .mk a c b ha hc hb⟩

theorem parseCardinality_ok {ts rest : List Token} {c : Option MinMax}
    (h : parseCardinality ts = .ok (c, rest)) :
    (c = none ∧ ts = rest) ∨
      ∃ l mm r, c.isSome ∧ ts = l :: mm ++ r :: rest ∧ l.value = "[" ∧ Spec.GMinMax mm ∧
        r.value = "]" := by
  cases ts with
  | nil => simp [parseCardinality] at h; exact Or.inl ⟨h.1.symm, h.2.symm⟩
  | cons t ts2 =>
    simp only [parseCardinality] at h
    split at h
    · rename_i ht
      cases h2 : parseMinMax ts2 with
      | error e => simp [h2] at h
      | ok p2 =>
        obtain ⟨mm, ts3⟩ := p2
        simp only [h2] at h
        cases h3 : expectLit "]" ts3 with
        | error e => simp [h3] at h
        | ok ts4 =>
          simp only [h3] at h
          cases h
          obtain ⟨ms, rfl, hms⟩ := parseMinMax_ok h2
          obtain ⟨r, rfl, hr⟩ := expectLit_ok h3
          exact Or.inr ⟨t, ms, r, rfl, by simp, ht, hms, hr⟩
    · cases h
      exact Or.inl ⟨rfl, rfl⟩

theorem parseRef_ok {ts rest : List Token} {r : Ref} (h : parseRef ts = .ok (r, rest)) :
    ∃ pre, ts = pre ++ rest ∧ Spec.GRef pre := by
  simp only [parseRef] at h
  cases h1 : parseAttribute ts with
  | error e => simp [h1] at h
  | ok p1 =>
    obtain ⟨a, ts1⟩ := p1
    simp only [h1] at h
    obtain ⟨as, rfl, has⟩ := parseAttribute_ok h1
    cases h2 : parseCardinality ts1 with
    | error e => simp [h2] at h
    | ok p2 =>
      obtain ⟨c, ts2⟩ := p2
      simp only [h2] at h
      cases h
      rcases parseCardinality_ok h2 with ⟨-, rfl⟩ | ⟨l, mm, r, -, rfl, hl, hmm, hr⟩
      · exact ⟨as, rfl, .attr as has⟩
      · exact ⟨as ++ l :: mm ++ [r], by simp, .card as l mm r has hl hmm hr⟩

theorem GAttribute_ne_nil {ts : List Token} (h : Spec.GAttribute ts) : ts ≠ [] := by
  cases h <;> simp

theorem GRef_ne_nil {ts : List Token} (h : Spec.GRef ts) : ts ≠ [] := by
  cases h with
  | attr _ ha => exact GAttribute_ne_nil ha
  | card => simp

theorem parseRef_length {ts rest : List Token} {r : Ref} (h : parseRef ts = .ok (r, rest)) :
    rest.length < ts.length := by
  obtain ⟨pre, rfl, hp⟩ := parseRef_ok h
  have := List.length_pos.mpr (GRef_ne_nil hp)
  simp only [List.length_append]
  omega

/-- What the repetition consumes: nothing, or a comma and a member list. -/
theorem parseMoreRefs_ok : ∀ (n : Nat) {ts rest : List Token} {rs : List Ref},
    parseMoreRefs n ts = .ok (rs, rest) →
    ts = rest ∨ ∃ c body, ts = c :: body ++ rest ∧ c.value = "," ∧ Spec.GRefList body := by
  intro n
  induction n with
  | zero =>
    intro ts rest rs h
    cases ts with
    | nil => simp [parseMoreRefs] at h; exact Or.inl h.2.symm
    | cons t ts => simp [parseMoreRefs] at h
  | succ n ih =>
    intro ts rest rs h
    cases ts with
    | nil => simp [parseMoreRefs] at h; exact Or.inl h.2.symm
    | cons t ts =>
      simp only [parseMoreRefs] at h
      split at h
      · rename_i ht
        cases h1 : parseRef ts with
        | error e => simp [h1] at h
        | ok p1 =>
          obtain ⟨r, ts1⟩ := p1
          simp only [h1] at h
          cases h2 : parseMoreRefs n ts1 with
          | error e => simp [h2] at h
          | ok p2 =>
            obtain ⟨rs2, ts2⟩ := p2
            simp only [h2] at h
            cases h
            obtain ⟨pre, rfl, hpre⟩ := parseRef_ok h1
            right
            rcases ih h2 with rfl | ⟨c, body, rfl, hc, hbody⟩
            · exact ⟨t, pre, rfl, ht, .one pre hpre⟩
            · exact ⟨t, pre ++ c :: body, by simp, ht, .cons pre c body hpre hc hbody⟩
      · cases h
        exact Or.inl rfl

theorem parseERDExpression_ok {ts rest : List Token} {e : ERDExpression}
    (h : parseERDExpression ts = .ok (e, rest)) :
    ∃ pre, ts = pre ++ rest ∧ Spec.GERDExpression pre ∧
      ∃ n, pre.head? = some n ∧ e.Name = n.value := by
  cases ts with
  | nil => simp [parseERDExpression] at h
  | cons n ts =>
    simp only [parseERDExpression] at h
    split at h
    · rename_i hn
      cases h1 : expectLit "(" ts with
      | error e => simp [h1] at h
      | ok ts1 =>
        simp only [h1] at h
        cases h2 : parseRef ts1 with
        | error e => simp [h2] at h
        | ok p2 =>
          obtain ⟨r, ts2⟩ := p2
          simp only [h2] at h
          cases h3 : parseMoreRefs ts2.length ts2 with
          | error e => simp [h3] at h
          | ok p3 =>
            obtain ⟨rs, ts3⟩ := p3
            simp only [h3] at h
            cases h4 : expectLit ")" ts3 with
            | error e => simp [h4] at h
            | ok ts4 =>
              simp only [h4] at h
              cases h
              obtain ⟨l, rfl, hl⟩ := expectLit_ok h1
              obtain ⟨pre, rfl, hpre⟩ := parseRef_ok h2
              obtain ⟨c, rfl, hc⟩ := expectLit_ok h4
              rcases parseMoreRefs_ok _ h3 with rfl | ⟨k, body, rfl, hk, hbody⟩
              · exact ⟨n :: l :: pre ++ [c], by simp, .mk n l pre c hn hl (.one pre hpre) hc,
                  n, rfl, rfl⟩
              · exact ⟨n :: l :: (pre ++ k :: body) ++ [c], by simp,
                  .mk n l _ c hn hl (.cons pre k body hpre hk hbody) hc, n, rfl, rfl⟩
    · cases h

theorem parseTokens_ok {toks : List Token} {e : ERDExpression} (h : parseTokens toks = .ok e) :
    parseERDExpression toks = .ok (e, []) := by
  simp only [parseTokens] at h
  cases h1 : parseERDExpression toks with
  | error err => simp [h1] at h
  | ok p =>
    obtain ⟨e1, rest⟩ := p
    simp only [h1] at h
    cases rest with
    | nil => simp at h; rw [h]
    | cons t ts => simp at h

theorem Parse_ok {s : String} {e : ERDExpression} (h : Parse s = .ok e) :
    ∃ toks, tokenize s = .ok toks ∧ parseTokens toks = .ok e := by
  simp only [Parse] at h
  cases h1 : tokenize s with
  | error err => simp [h1] at h
  | ok toks => simp only [h1] at h; exact ⟨toks, rfl, h⟩

/-! ## The lexer's tokens are well formed -/

theorem matchHead_kind {cs lexeme rest : List Char} {k : TokenType}
    (h : matchHead cs = some (some k, lexeme, rest)) : lexemeOfKind k lexeme = true := by
  cases cs with
  | nil => simp [matchHead] at h
  | cons c cs =>
    simp only [matchHead] at h
    split at h
    · simp at h
    · split at h
      · rename_i hc
        simp only [Option.some.injEq, Prod.mk.injEq] at h
        obtain ⟨hk, hl, -⟩ := h
        cases hk; subst hl
        simp only [lexemeOfKind, hc, Bool.true_and, List.all_eq_true]
        intro d hd
        exact List.mem_takeWhile_imp hd
      · split at h
        · cases cs with
          | nil => simp at h
          | cons d rest2 =>
            simp only at h
            split at h
            · rename_i hc hd
              simp only [Option.some.injEq, Prod.mk.injEq] at h
              obtain ⟨hk, hl, -⟩ := h
              cases hk; subst hl
              simp [lexemeOfKind, hc, hd]
            · simp at h
        · split at h
          · rename_i hc
            simp only [Option.some.injEq, Prod.mk.injEq] at h
            obtain ⟨hk, hl, -⟩ := h
            cases hk; subst hl
            simp [lexemeOfKind, hc]
          · split at h
            · rename_i hc
              simp only [Option.some.injEq, Prod.mk.injEq] at h
              obtain ⟨hk, hl, -⟩ := h
              cases hk; subst hl
              simp only [lexemeOfKind, hc, Bool.true_and, List.all_eq_true]
              intro d hd
              exact List.mem_takeWhile_imp hd
            · simp at h

theorem lexLoop_wellFormed : ∀ (n : Nat) (pos : Position) (cs : List Char) (toks : List Token),
    lexLoop n pos cs = .ok toks → ∀ t ∈ toks, t.wellFormed := by
  intro n
  induction n with
  | zero =>
    intro pos cs toks h
    cases cs with
    | nil => simp [lexLoop] at h; subst h; simp
    | cons c cs => simp [lexLoop] at h
  | succ n ih =>
    intro pos cs toks h
    cases cs with
    | nil => simp [lexLoop] at h; subst h; simp
    | cons c cs =>
      simp only [lexLoop] at h
      split at h
      · cases h
      · exact ih _ _ _ h
      · rename_i k lexeme rest hm
        cases h2 : lexLoop n (pos.advance lexeme) rest with
        | error e => simp [h2] at h
        | ok toks2 =>
          simp only [h2, Except.ok.injEq] at h
          subst h
          intro t ht
          rcases List.mem_cons.mp ht with rfl | ht
          · exact matchHead_kind hm
          · exact ih _ _ _ h2 t ht

theorem tokenize_wellFormed {s : String} {toks : List Token} (h : tokenize s = .ok toks) :
    ∀ t ∈ toks, t.wellFormed :=
  lexLoop_wellFormed _ _ _ _ h

/-! ## Written inputs parse to what they say -/

open Spec

theorem parseBound_token (b : Bound) (rest : List Token) :
    parseBound (b.token :: rest) = .ok (b.text, rest) := by
  cases b <;> simp [parseBound, Bound.token, Bound.text, op]

theorem parseMinMax_tokens (lo hi : Bound) (rest : List Token) :
    parseMinMax (lo.token :: op "," :: hi.token :: rest) = .ok (⟨lo.text, hi.text⟩, rest) := by
  simp [parseMinMax, parseBound_token, expectLit, op]

theorem parseAttribute_plain (ident : String) (rest : List Token) (hid : ident ≠ "_") :
    parseAttribute (⟨.Ident, ident⟩ :: rest) = .ok (⟨none, some ident⟩, rest) := by
  simp [parseAttribute, hid]

theorem parseAttribute_pk (ident : String) (rest : List Token) :
    parseAttribute (op "_" :: ⟨.Ident, ident⟩ :: op "_" :: rest)
      = .ok (⟨some ident, none⟩, rest) := by
  simp [parseAttribute, expectLit, op]

theorem parseCardinality_none (rest : List Token) (hrest : ∀ t ∈ rest.head?, t.value ≠ "[") :
    parseCardinality rest = .ok (none, rest) := by
  cases rest with
  | nil => rfl
  | cons t ts =>
    have : t.value ≠ "[" := hrest t (by simp)
    simp [parseCardinality, this]

theorem parseCardinality_some (lo hi : Bound) (rest : List Token) :
    parseCardinality (op "[" :: lo.token :: op "," :: hi.token :: op "]" :: rest)
      = .ok (some ⟨lo.text, hi.text⟩, rest) := by
  have hl : (op "[").value = "[" := rfl
  simp only [parseCardinality, hl, if_true, parseMinMax_tokens]
  simp [expectLit, op]

theorem parseRef_member (m : Member) (rest : List Token) (hid : m.ident ≠ "_")
    (hrest : ∀ t ∈ rest.head?, t.value ≠ "[") :
    parseRef (m.tokens ++ rest) = .ok (m.ref, rest) := by
  obtain ⟨pk, ident, card⟩ := m
  simp only at hid
  cases pk <;> cases card with
  | none =>
    simp [Member.tokens, Member.ref, parseRef, parseAttribute_plain, parseAttribute_pk, hid,
      parseCardinality_none _ hrest]
  | some b =>
    obtain ⟨lo, hi⟩ := b
    simp [Member.tokens, Member.ref, parseRef, parseAttribute_plain, parseAttribute_pk, hid,
      parseCardinality_some]

theorem moreMemberTokens_head (ms : List Member) (rest : List Token) :
    ∀ t ∈ (moreMemberTokens ms ++ op ")" :: rest).head?, t.value ≠ "[" := by
  cases ms with
  | nil => simp [moreMemberTokens, op]
  | cons m ms => simp [moreMemberTokens, op]

theorem parseMoreRefs_members : ∀ (ms : List Member) (n : Nat) (rest : List Token),
    (∀ m ∈ ms, m.ident ≠ "_") →
    (moreMemberTokens ms ++ op ")" :: rest).length ≤ n →
    parseMoreRefs n (moreMemberTokens ms ++ op ")" :: rest)
      = .ok (ms.map Member.ref, op ")" :: rest) := by
  intro ms
  induction ms with
  | nil =>
    intro n rest _ hn
    cases n with
    | zero => simp [moreMemberTokens] at hn
    | succ k => simp [moreMemberTokens, parseMoreRefs, op]
  | cons m ms ih =>
    intro n rest hid hn
    cases n with
    | zero => simp [moreMemberTokens] at hn
    | succ k =>
      have h1 : parseRef (m.tokens ++ (moreMemberTokens ms ++ op ")" :: rest))
          = .ok (m.ref, moreMemberTokens ms ++ op ")" :: rest) :=
        parseRef_member m _ (hid m (by simp)) (moreMemberTokens_head ms rest)
      have h2 := ih k rest (fun x hx => hid x (by simp [hx])) (by
        simp only [moreMemberTokens, List.cons_append, List.append_assoc, List.length_cons,
          List.length_append] at hn ⊢
        omega)
      have hc : (op ",").value = "," := rfl
      have ht : moreMemberTokens (m :: ms) ++ op ")" :: rest
          = op "," :: (m.tokens ++ (moreMemberTokens ms ++ op ")" :: rest)) := by
        simp [moreMemberTokens]
      rw [ht]
      simp only [parseMoreRefs, hc, if_true, h1, h2, List.map_cons]

theorem parseTokens_input (name : String) (ms : List Member) (hne : ms ≠ [])
    (hid : ∀ m ∈ ms, m.ident ≠ "_") :
    parseTokens (inputTokens name ms) = .ok ⟨name, ms.map Member.ref⟩ := by
  cases ms with
  | nil => exact absurd rfl hne
  | cons m ms =>
    have h1 : parseRef (m.tokens ++ (moreMemberTokens ms ++ op ")" :: []))
        = .ok (m.ref, moreMemberTokens ms ++ op ")" :: []) :=
      parseRef_member m _ (hid m (by simp)) (moreMemberTokens_head ms [])
    have h2 := parseMoreRefs_members ms (moreMemberTokens ms ++ op ")" :: []).length []
      (fun x hx => hid x (by simp [hx])) (le_refl _)
    have hl : (op "(").value = "(" := rfl
    have hr : (op ")").value = ")" := rfl
    have ht : inputTokens name (m :: ms)
        = ⟨.Ident, name⟩ :: op "(" :: (m.tokens ++ (moreMemberTokens ms ++ op ")" :: [])) := by
      simp [inputTokens, memberListTokens]
    rw [ht]
    simp only [parseTokens, parseERDExpression, if_true, expectLit, hl, h1, h2, hr,
      List.map_cons]

theorem ident_mem_inputTokens (name : String) (ms : List Member) (m : Member) (hm : m ∈ ms) :
    (⟨.Ident, m.ident⟩ : Token) ∈ inputTokens name ms := by
  have hmt : ∀ x : Member, (⟨.Ident, x.ident⟩ : Token) ∈ x.tokens := by
    intro x
    simp only [Member.tokens]
    cases x.pk <;> simp
  have hmore : ∀ l : List Member, m ∈ l → (⟨.Ident, m.ident⟩ : Token) ∈ moreMemberTokens l := by
    intro l
    induction l with
    | nil => simp
    | cons x xs ih =>
      intro hx
      rcases List.mem_cons.mp hx with rfl | hx
      · simp [moreMemberTokens, hmt]
      · simp [moreMemberTokens, ih hx]
  cases ms with
  | nil => simp at hm
  | cons x xs =>
    rcases List.mem_cons.mp hm with rfl | hx
    · simp [inputTokens, memberListTokens, hmt]
    · simp [inputTokens, memberListTokens, hmore _ hx]

theorem ident_ne_underscore {t : Token} (hw : t.wellFormed) (hk : t.kind = .Ident) :
    t.value ≠ "_" := by
  obtain ⟨k, v⟩ := t
  simp only at hk
  subst hk
  intro hv
  simp only at hv
  subst hv
  revert hw
  simp only [Token.wellFormed]
  decide

/-- An input written `name(members)` parses to the expression with that name and those
members, in that order. -/
theorem Parse_input {s : String} {name : String} {ms : List Member}
    (h : tokenize s = .ok (inputTokens name ms)) (hne : ms ≠ []) :
    Parse s = .ok ⟨name, ms.map Member.ref⟩ := by
  have hid : ∀ m ∈ ms, m.ident ≠ "_" := fun m hm =>
    @ident_ne_underscore ⟨.Ident, m.ident⟩
      (tokenize_wellFormed h _ (ident_mem_inputTokens name ms m hm)) rfl
  simp only [Parse, h]
  exact parseTokens_input name ms hne hid

/-! ## Token sequences of the grammar are written inputs -/

theorem lit_eq_op {t : Token} (hw : t.wellFormed) {lit : String}
    (hl : lit ∈ ["_", "(", ")", "[", "]", ",", "*"]) (hv : t.value = lit) : t = op lit := by
  obtain ⟨k, v⟩ := t
  simp only at hv
  subst hv
  cases k with
  | Operators => rfl
  | Ident =>
    exfalso
    simp only [List.mem_cons, List.mem_singleton, List.not_mem_nil, or_false] at hl
    rcases hl with rfl | rfl | rfl | rfl | rfl | rfl | rfl <;>
      exact absurd hw (by simp only [Token.wellFormed]; decide)
  | CardinalityNum =>
    exfalso
    simp only [List.mem_cons, List.mem_singleton, List.not_mem_nil, or_false] at hl
    rcases hl with rfl | rfl | rfl | rfl | rfl | rfl | rfl <;>
      exact absurd hw (by simp only [Token.wellFormed]; decide)

theorem bound_eq_token {t : Token} (hw : t.wellFormed) (hb : IsBound t) :
    ∃ b : Bound, t = b.token ∧ b.text = t.value := by
  rcases hb with hk | hv
  · obtain ⟨k, v⟩ := t
    simp only at hk
    subst hk
    exact ⟨.number v, rfl, rfl⟩
  · have h := lit_eq_op hw (by simp) hv
    exact ⟨.star, h, hv.symm⟩

theorem GRef_member {seg : List Token} (h : GRef seg) (hw : ∀ t ∈ seg, t.wellFormed) :
    ∃ m : Member, seg = m.tokens := by
  have hattr : ∀ as : List Token, GAttribute as → (∀ t ∈ as, t.wellFormed) →
      ∃ (pk : Bool) (ident : String),
        as = if pk then [op "_", ⟨.Ident, ident⟩, op "_"] else [⟨.Ident, ident⟩] := by
    intro as ha hwa
    cases ha with
    | pk u x v hu hx hv =>
      have h1 := lit_eq_op (hwa u (by simp)) (by simp) hu
      have h3 := lit_eq_op (hwa v (by simp)) (by simp) hv
      obtain ⟨k, ident⟩ := x
      simp only at hx
      subst hx
      exact ⟨true, ident, by simp [h1, h3]⟩
    | plain x hx =>
      obtain ⟨k, ident⟩ := x
      simp only at hx
      subst hx
      exact ⟨false, ident, by simp⟩
  cases h with
  | attr _ ha =>
    obtain ⟨pk, ident, rfl⟩ := hattr _ ha hw
    exact ⟨⟨pk, ident, none⟩, by simp [Member.tokens]⟩
  | card as1 l mm r ha hl hmm hr =>
    obtain ⟨pk, ident, rfl⟩ := hattr as1 ha (fun t ht => hw t (by simp [ht]))
    cases hmm with
    | mk a c b hba hc hbb =>
      have h1 := lit_eq_op (hw l (by simp)) (by simp) hl
      have h2 := lit_eq_op (hw c (by simp)) (by simp) hc
      have h3 := lit_eq_op (hw r (by simp)) (by simp) hr
      obtain ⟨lo, hlo, -⟩ := bound_eq_token (hw a (by simp)) hba
      obtain ⟨hi, hhi, -⟩ := bound_eq_token (hw b (by simp)) hbb
      exact ⟨⟨pk, ident, some (lo, hi)⟩, by simp [Member.tokens, h1, h2, h3, hlo, hhi]⟩

theorem GRefList_members {body : List Token} (h : GRefList body)
    (hw : ∀ t ∈ body, t.wellFormed) :
    ∃ (m : Member) (ms : List Member), body = m.tokens ++ moreMemberTokens ms := by
  induction h with
  | one seg hseg =>
    obtain ⟨m, rfl⟩ := GRef_member hseg hw
    exact ⟨m, [], by simp [moreMemberTokens]⟩
  | cons seg c rest hseg hc _ ih =>
    obtain ⟨m, rfl⟩ := GRef_member hseg (fun t ht => hw t (by simp [ht]))
    obtain ⟨m2, ms, rfl⟩ := ih (fun t ht => hw t (by simp [ht]))
    have h1 := lit_eq_op (hw c (by simp)) (by simp) hc
    exact ⟨m, m2 :: ms, by simp [moreMemberTokens, h1]⟩

/-- A well-formed token sequence of the grammar is `name(members)` for a name and a non-empty
list of written members. -/
theorem GERDExpression_input {toks : List Token} (h : GERDExpression toks)
    (hw : ∀ t ∈ toks, t.wellFormed) :
    ∃ (name : String) (ms : List Member), ms ≠ [] ∧ toks = inputTokens name ms ∧
      toks.head? = some ⟨.Ident, name⟩ := by
  cases h with
  | mk n l body r hn hl hbody hr =>
    obtain ⟨m, ms, rfl⟩ := GRefList_members hbody (fun t ht => hw t (by simp [ht]))
    have h1 := lit_eq_op (hw l (by simp)) (by simp) hl
    have h2 := lit_eq_op (hw r (by simp)) (by simp) hr
    obtain ⟨k, name⟩ := n
    simp only at hn
    subst hn
    exact ⟨name, m :: ms, by simp, by simp [inputTokens, memberListTokens, h1, h2], rfl⟩

/-- Every accepted input is written `name(members)`, and the AST holds that name and the
members in their order. -/
theorem Parse_ok_input {s : String} {ast : ERDExpression} (h : Parse s = .ok ast) :
    ∃ (name : String) (ms : List Member), ms ≠ [] ∧ tokenize s = .ok (inputTokens name ms) ∧
      ast = ⟨name, ms.map Member.ref⟩ := by
  obtain ⟨toks, hlex, hp⟩ := Parse_ok h
  obtain ⟨pre, hpre, hg, -⟩ := parseERDExpression_ok (parseTokens_ok hp)
  rw [List.append_nil] at hpre
  subst hpre
  obtain ⟨name, ms, hne, rfl, -⟩ := GERDExpression_input hg (tokenize_wellFormed hlex)
  refine ⟨name, ms, hne, hlex, ?_⟩
  have h2 := Parse_input hlex hne
  rw [h] at h2
  exact Except.ok.inj h2

theorem Member.ref_Name (m : Member) : m.ref.Name = some m.ident := by
  obtain ⟨pk, ident, card⟩ := m
  cases pk <;> simp [Member.ref, Ref.Name, Attribute.Name, Attribute.IsPK]

theorem Member.ref_IsPK (m : Member) : m.ref.RefName.IsPK = m.pk := by
  obtain ⟨pk, ident, card⟩ := m
  cases pk <;> simp [Member.ref, Attribute.IsPK]

theorem Member.ref_IsEntityRef (m : Member) : m.ref.IsEntityRef = m.card.isSome := by
  obtain ⟨pk, ident, card⟩ := m
  cases card <;> simp [Member.ref, Ref.IsEntityRef]

/-- An input written with an empty member list is not accepted. -/
theorem Parse_input_nil {s : String} {name : String} (h : tokenize s = .ok (inputTokens name [])) :
    Parse s = .error .unexpectedToken := by
  simp only [Parse, h]
  simp [inputTokens, memberListTokens, parseTokens, parseERDExpression, expectLit, op,
    parseRef, parseAttribute]

/-! ## Tokens after the closing parenthesis -/

theorem expectLit_append {lit : String} {ts rest : List Token} (x : List Token)
    (h : expectLit lit ts = .ok rest) : expectLit lit (ts ++ x) = .ok (rest ++ x) := by
  obtain ⟨t, rfl, ht⟩ := expectLit_ok h
  simp [expectLit, ht]

theorem parseAttribute_append {ts rest : List Token} {a : Attribute} (x : List Token)
    (h : parseAttribute ts = .ok (a, rest)) :
    parseAttribute (ts ++ x) = .ok (a, rest ++ x) := by
  cases ts with
  | nil => simp [parseAttribute] at h
  | cons t ts =>
    simp only [parseAttribute] at h
    simp only [List.cons_append, parseAttribute]
    split at h
    · rename_i hu
      cases ts with
      | nil => simp at h
      | cons y ts1 =>
        simp only at h
        split at h
        · rename_i hy
          cases hl : expectLit "_" ts1 with
          | error e => simp [hl] at h
          | ok ts2 =>
            simp only [hl] at h
            cases h
            simp [hu, hy, expectLit_append x hl]
        · cases h
    · rename_i hu
      split at h
      · rename_i hy
        cases h
        simp [hu, hy]
      · cases h

theorem parseBound_append {ts rest : List Token} {b : String} (x : List Token)
    (h : parseBound ts = .ok (b, rest)) : parseBound (ts ++ x) = .ok (b, rest ++ x) := by
  cases ts with
  | nil => simp [parseBound] at h
  | cons t ts =>
    simp only [parseBound] at h
    simp only [List.cons_append, parseBound]
    split at h
    · rename_i hk
      cases h
      simp [hk]
    · rename_i hk
      split at h
      · rename_i hv
        cases h
        simp [hk, hv]
      · cases h

theorem parseMinMax_append {ts rest : List Token} {mm : MinMax} (x : List Token)
    (h : parseMinMax ts = .ok (mm, rest)) : parseMinMax (ts ++ x) = .ok (mm, rest ++ x) := by
  simp only [parseMinMax] at h
  cases h1 : parseBound ts with
  | error e => simp [h1] at h
  | ok p1 =>
    obtain ⟨mn, ts1⟩ := p1
    simp only [h1] at h
    cases h2 : expectLit "," ts1 with
    | error e => simp [h2] at h
    | ok ts2 =>
      simp only [h2] at h
      cases h3 : parseBound ts2 with
      | error e => simp [h3] at h
      | ok p3 =>
        obtain ⟨mx, ts3⟩ := p3
        simp only [h3] at h
        cases h
        simp [parseMinMax, parseBound_append x h1, expectLit_append x h2, parseBound_append x h3]

/-- The optional group looks at the next token: with one in sight, tokens added at the end
do not change what it does. -/
theorem parseCardinality_append {ts rest : List Token} {c : Option MinMax} (x : List Token)
    (h : parseCardinality ts = .ok (c, rest)) (hne : ts ≠ []) :
    parseCardinality (ts ++ x) = .ok (c, rest ++ x) := by
  cases ts with
  | nil => exact absurd rfl hne
  | cons t ts2 =>
    simp only [parseCardinality] at h
    simp only [List.cons_append, parseCardinality]
    split at h
    · rename_i ht
      cases h2 : parseMinMax ts2 with
      | error e => simp [h2] at h
      | ok p2 =>
        obtain ⟨mm, ts3⟩ := p2
        simp only [h2] at h
        cases h3 : expectLit "]" ts3 with
        | error e => simp [h3] at h
        | ok ts4 =>
          simp only [h3] at h
          cases h
          simp [ht, parseMinMax_append x h2, expectLit_append x h3]
    · rename_i ht
      cases h
      simp [ht]

theorem parseCardinality_nil {rest : List Token} {c : Option MinMax}
    (h : parseCardinality [] = .ok (c, rest)) : rest = [] := by
  simp [parseCardinality] at h
  exact h.2

theorem parseRef_append {ts rest : List Token} {r : Ref} (x : List Token)
    (h : parseRef ts = .ok (r, rest)) (hne : rest ≠ []) :
    parseRef (ts ++ x) = .ok (r, rest ++ x) := by
  simp only [parseRef] at h
  cases h1 : parseAttribute ts with
  | error e => simp [h1] at h
  | ok p1 =>
    obtain ⟨a, ts1⟩ := p1
    simp only [h1] at h
    cases h2 : parseCardinality ts1 with
    | error e => simp [h2] at h
    | ok p2 =>
      obtain ⟨c, ts2⟩ := p2
      simp only [h2] at h
      cases h
      have hts1 : ts1 ≠ [] := by
        rintro rfl
        exact hne (parseCardinality_nil h2)
      simp [parseRef, parseAttribute_append x h1, parseCardinality_append x h2 hts1]

theorem parseMoreRefs_append : ∀ (n : Nat) {ts rest : List Token} {rs : List Ref}
    (x : List Token) (m : Nat),
    parseMoreRefs n ts = .ok (rs, rest) → rest ≠ [] → (ts ++ x).length ≤ m →
    parseMoreRefs m (ts ++ x) = .ok (rs, rest ++ x) := by
  intro n
  induction n with
  | zero =>
    intro ts rest rs x m h hne _
    cases ts with
    | nil => simp [parseMoreRefs] at h; exact absurd h.2 hne
    | cons t ts => simp [parseMoreRefs] at h
  | succ n ih =>
    intro ts rest rs x m h hne hm
    cases ts with
    | nil => simp [parseMoreRefs] at h; exact absurd h.2 hne
    | cons t ts =>
      cases m with
      | zero => simp at hm
      | succ m =>
        simp only [parseMoreRefs] at h
        simp only [List.cons_append, parseMoreRefs]
        split at h
        · rename_i ht
          cases h1 : parseRef ts with
          | error e => simp [h1] at h
          | ok p1 =>
            obtain ⟨r, ts1⟩ := p1
            simp only [h1] at h
            cases h2 : parseMoreRefs n ts1 with
            | error e => simp [h2] at h
            | ok p2 =>
              obtain ⟨rs2, ts2⟩ := p2
              simp only [h2] at h
              cases h
              have hts1 : ts1 ≠ [] := by
                rintro rfl
                cases n <;> simp [parseMoreRefs] at h2 <;> exact hne h2.2
              have hlen := parseRef_length h1
              have h3 := ih x m h2 hne (by
                simp only [List.cons_append, List.length_cons, List.length_append] at hm ⊢
                omega)
              simp [ht, parseRef_append x h1 hts1, h3]
        · rename_i ht
          cases h
          simp [ht]

theorem parseERDExpression_append {ts rest : List Token} {e : ERDExpression} (x : List Token)
    (h : parseERDExpression ts = .ok (e, rest)) :
    parseERDExpression (ts ++ x) = .ok (e, rest ++ x) := by
  cases ts with
  | nil => simp [parseERDExpression] at h
  | cons n ts =>
    simp only [parseERDExpression] at h
    simp only [List.cons_append, parseERDExpression]
    split at h
    · rename_i hn
      cases h1 : expectLit "(" ts with
      | error e => simp [h1] at h
      | ok ts1 =>
        simp only [h1] at h
        cases h2 : parseRef ts1 with
        | error e => simp [h2] at h
        | ok p2 =>
          obtain ⟨r, ts2⟩ := p2
          simp only [h2] at h
          cases h3 : parseMoreRefs ts2.length ts2 with
          | error e => simp [h3] at h
          | ok p3 =>
            obtain ⟨rs, ts3⟩ := p3
            simp only [h3] at h
            cases h4 : expectLit ")" ts3 with
            | error e => simp [h4] at h
            | ok ts4 =>
              simp only [h4] at h
              cases h
              have hts3 : ts3 ≠ [] := by
                obtain ⟨c, rfl, -⟩ := expectLit_ok h4
                simp
              have hts2 : ts2 ≠ [] := by
                rintro rfl
                simp [parseMoreRefs] at h3
                exact hts3 h3.2
              have h5 := parseMoreRefs_append _ x (ts2 ++ x).length h3 hts3 (le_refl _)
              simp only [hn, if_true, expectLit_append x h1, parseRef_append x h2 hts2, h5,
                expectLit_append x h4]
    · cases h

/-- Tokens after an accepted token sequence make it a rejected one. -/
theorem parseTokens_append {toks : List Token} {e : ERDExpression} (x : List Token)
    (h : parseTokens toks = .ok e) (hx : x ≠ []) :
    parseTokens (toks ++ x) = .error .unexpectedToken := by
  have h1 := parseERDExpression_append x (parseTokens_ok h)
  simp only [parseTokens, h1, List.nil_append]
  cases x with
  | nil => exact absurd rfl hx
  | cons t ts => rfl

/-- The AST of an accepted input written `name(members)`. -/
theorem Parse_eq_of_input {s : String} {ast : ERDExpression} {name : String} {ms : List Member}
    (hlex : tokenize s = .ok (inputTokens name ms)) (hp : Parse s = .ok ast) :
    ms ≠ [] ∧ ast = ⟨name, ms.map Member.ref⟩ := by
  have hne : ms ≠ [] := by
    rintro rfl
    rw [Parse_input_nil hlex] at hp
    cases hp
  have h2 := Parse_input hlex hne
  rw [hp] at h2
  exact ⟨hne, Except.ok.inj h2⟩

theorem getElem?_map_ref (ms : List Member) (i : Nat) (h : i < ms.length) :
    (ms.map Member.ref)[i]? = some (ms.get ⟨i, h⟩).ref := by
  simp [List.getElem?_map, List.getElem?_eq_getElem h]

theorem isRelationshipLoop_iff (rs : List Ref) :
    isRelationshipLoop rs = true ↔ ∃ r ∈ rs, r.Cardinality.isSome = true := by
  induction rs with
  | nil => simp [isRelationshipLoop]
  | cons r rs ih =>
    simp only [isRelationshipLoop, List.mem_cons, exists_eq_or_imp]
    by_cases hr : r.IsEntityRef = true
    · have hc : r.Cardinality.isSome = true := hr
      simp [hr, hc]
    · have hc : ¬ r.Cardinality.isSome = true := hr
      simp only [hr, hc, false_or]
      simpa using ih

/-! ## The loop budgets are never used up -/

theorem matchHead_split {cs lexeme rest : List Char} {g : Option TokenType}
    (h : matchHead cs = some (g, lexeme, rest)) : cs = lexeme ++ rest ∧ lexeme ≠ [] := by
  cases cs with
  | nil => simp [matchHead] at h
  | cons c cs =>
    simp only [matchHead] at h
    split at h
    · simp only [Option.some.injEq, Prod.mk.injEq] at h
      obtain ⟨-, hl, hr⟩ := h
      subst hl; subst hr
      simp [List.takeWhile_append_dropWhile]
    · split at h
      · simp only [Option.some.injEq, Prod.mk.injEq] at h
        obtain ⟨-, hl, hr⟩ := h
        subst hl; subst hr
        simp [List.takeWhile_append_dropWhile]
      · split at h
        · cases cs with
          | nil => simp at h
          | cons d rest2 =>
            simp only at h
            split at h
            · simp only [Option.some.injEq, Prod.mk.injEq] at h
              obtain ⟨-, hl, hr⟩ := h
              subst hl; subst hr
              simp
            · simp at h
        · split at h
          · simp only [Option.some.injEq, Prod.mk.injEq] at h
            obtain ⟨-, hl, hr⟩ := h
            subst hl; subst hr
            simp
          · split at h
            · simp only [Option.some.injEq, Prod.mk.injEq] at h
              obtain ⟨-, hl, hr⟩ := h
              subst hl; subst hr
              simp [List.takeWhile_append_dropWhile]
            · simp at h

theorem matchHead_length {cs lexeme rest : List Char} {g : Option TokenType}
    (h : matchHead cs = some (g, lexeme, rest)) : rest.length < cs.length := by
  obtain ⟨rfl, hne⟩ := matchHead_split h
  have := List.length_pos.mpr hne
  simp only [List.length_append]
  omega

theorem lexLoop_nil (n : Nat) (pos : Position) : lexLoop n pos [] = .ok [] := by
  cases n <;> rfl

/-- With a budget of at least the input's length the lexer's result does not depend on the
budget. -/
theorem lexLoop_fuel : ∀ (n m : Nat) (pos : Position) (cs : List Char),
    cs.length ≤ n → cs.length ≤ m → lexLoop n pos cs = lexLoop m pos cs := by
  intro n
  induction n with
  | zero =>
    intro m pos cs hn _
    have : cs = [] := List.length_eq_zero.mp (Nat.le_zero.mp hn)
    subst this
    rw [lexLoop_nil, lexLoop_nil]
  | succ n ih =>
    intro m pos cs hn hm
    cases cs with
    | nil => rw [lexLoop_nil, lexLoop_nil]
    | cons c cs =>
      cases m with
      | zero => simp at hm
      | succ m =>
        simp only [lexLoop]
        cases hmh : matchHead (c :: cs) with
        | none => rfl
        | some p =>
          obtain ⟨g, lexeme, rest⟩ := p
          have hlen := matchHead_length hmh
          simp only [List.length_cons] at hlen hn hm
          have hih := ih m (pos.advance lexeme) rest (by omega) (by omega)
          cases g with
          | none => exact hih
          | some k => simp only [hih]

theorem lexLoop_error : ∀ (n : Nat) (pos : Position) (cs : List Char) (e : ParseError),
    cs.length ≤ n → lexLoop n pos cs = .error e → ∃ p c, e = .invalidToken p c := by
  intro n
  induction n with
  | zero =>
    intro pos cs e hn h
    have : cs = [] := List.length_eq_zero.mp (Nat.le_zero.mp hn)
    subst this
    rw [lexLoop_nil] at h
    cases h
  | succ n ih =>
    intro pos cs e hn h
    cases cs with
    | nil => rw [lexLoop_nil] at h; cases h
    | cons c cs =>
      simp only [lexLoop] at h
      cases hmh : matchHead (c :: cs) with
      | none =>
        simp only [hmh] at h
        cases h
        exact ⟨pos, c, rfl⟩
      | some p =>
        obtain ⟨g, lexeme, rest⟩ := p
        have hlen := matchHead_length hmh
        simp only [List.length_cons] at hlen hn
        cases g with
        | none =>
          simp only [hmh] at h
          exact ih _ _ _ (by omega) h
        | some k =>
          simp only [hmh] at h
          cases h2 : lexLoop n (pos.advance lexeme) rest with
          | error e2 =>
            simp only [h2] at h
            cases h
            exact ih _ _ _ (by omega) h2
          | ok toks => simp [h2] at h

theorem expectLit_error {lit : String} {ts : List Token} {e : ParseError}
    (h : expectLit lit ts = .error e) : e = .unexpectedToken := by
  cases ts with
  | nil => simp [expectLit] at h; exact h.symm
  | cons t ts =>
    simp only [expectLit] at h
    split at h
    · cases h
    · cases h; rfl

theorem parseAttribute_error {ts : List Token} {e : ParseError}
    (h : parseAttribute ts = .error e) : e = .unexpectedToken := by
  cases ts with
  | nil => simp [parseAttribute] at h; exact h.symm
  | cons t ts =>
    simp only [parseAttribute] at h
    split at h
    · cases ts with
      | nil => simp at h; exact h.symm
      | cons x ts1 =>
        simp only at h
        split at h
        · cases hl : expectLit "_" ts1 with
          | error e2 =>
            simp only [hl] at h
            cases h
            exact expectLit_error hl
          | ok ts2 => simp [hl] at h
        · cases h; rfl
    · split at h
      · cases h
      · cases h; rfl

theorem parseBound_error {ts : List Token} {e : ParseError}
    (h : parseBound ts = .error e) : e = .unexpectedToken := by
  cases ts with
  | nil => simp [parseBound] at h; exact h.symm
  | cons t ts =>
    simp only [parseBound] at h
    split at h
    · cases h
    · split at h
      · cases h
      · cases h; rfl

theorem parseMinMax_error {ts : List Token} {e : ParseError}
    (h : parseMinMax ts = .error e) : e = .unexpectedToken := by
  simp only [parseMinMax] at h
  cases h1 : parseBound ts with
  | error e1 => simp only [h1] at h; cases h; exact parseBound_error h1
  | ok p1 =>
    obtain ⟨mn, ts1⟩ := p1
    simp only [h1] at h
    cases h2 : expectLit "," ts1 with
    | error e2 => simp only [h2] at h; cases h; exact expectLit_error h2
    | ok ts2 =>
      simp only [h2] at h
      cases h3 : parseBound ts2 with
      | error e3 => simp only [h3] at h; cases h; exact parseBound_error h3
      | ok p3 => simp [h3] at h

theorem parseCardinality_error {ts : List Token} {e : ParseError}
    (h : parseCardinality ts = .error e) : e = .unexpectedToken := by
  cases ts with
  | nil => simp [parseCardinality] at h
  | cons t ts2 =>
    simp only [parseCardinality] at h
    split at h
    · cases h2 : parseMinMax ts2 with
      | error e2 => simp only [h2] at h; cases h; exact parseMinMax_error h2
      | ok p2 =>
        obtain ⟨mm, ts3⟩ := p2
        simp only [h2] at h
        cases h3 : expectLit "]" ts3 with
        | error e3 => simp only [h3] at h; cases h; exact expectLit_error h3
        | ok ts4 => simp [h3] at h
    · cases h

theorem parseRef_error {ts : List Token} {e : ParseError}
    (h : parseRef ts = .error e) : e = .unexpectedToken := by
  simp only [parseRef] at h
  cases h1 : parseAttribute ts with
  | error e1 => simp only [h1] at h; cases h; exact parseAttribute_error h1
  | ok p1 =>
    obtain ⟨a, ts1⟩ := p1
    simp only [h1] at h
    cases h2 : parseCardinality ts1 with
    | error e2 => simp only [h2] at h; cases h; exact parseCardinality_error h2
    | ok p2 => simp [h2] at h

theorem parseMoreRefs_error : ∀ (n : Nat) {ts : List Token} {e : ParseError},
    ts.length ≤ n → parseMoreRefs n ts = .error e → e = .unexpectedToken := by
  intro n
  induction n with
  | zero =>
    intro ts e hn h
    have : ts = [] := List.length_eq_zero.mp (Nat.le_zero.mp hn)
    subst this
    simp [parseMoreRefs] at h
  | succ n ih =>
    intro ts e hn h
    cases ts with
    | nil => simp [parseMoreRefs] at h
    | cons t ts =>
      simp only [parseMoreRefs] at h
      split at h
      · cases h1 : parseRef ts with
        | error e1 => simp only [h1] at h; cases h; exact parseRef_error h1
        | ok p1 =>
          obtain ⟨r, ts1⟩ := p1
          simp only [h1] at h
          have hlen := parseRef_length h1
          simp only [List.length_cons] at hn
          cases h2 : parseMoreRefs n ts1 with
          | error e2 => simp only [h2] at h; cases h; exact ih (by omega) h2
          | ok p2 => simp [h2] at h
      · cases h

theorem parseTokens_error {toks : List Token} {e : ParseError}
    (h : parseTokens toks = .error e) : e = .unexpectedToken := by
  simp only [parseTokens] at h
  cases h0 : parseERDExpression toks with
  | ok p =>
    obtain ⟨ast, rest⟩ := p
    simp only [h0] at h
    cases rest with
    | nil => simp at h
    | cons t ts => simp at h; exact h.symm
  | error e0 =>
    simp only [h0] at h
    cases h
    cases toks with
    | nil => simp [parseERDExpression] at h0; exact h0.symm
    | cons n ts =>
      simp only [parseERDExpression] at h0
      split at h0
      · cases h1 : expectLit "(" ts with
        | error e1 => simp only [h1] at h0; cases h0; exact expectLit_error h1
        | ok ts1 =>
          simp only [h1] at h0
          cases h2 : parseRef ts1 with
          | error e2 => simp only [h2] at h0; cases h0; exact parseRef_error h2
          | ok p2 =>
            obtain ⟨r, ts2⟩ := p2
            simp only [h2] at h0
            cases h3 : parseMoreRefs ts2.length ts2 with
            | error e3 =>
              simp only [h3] at h0
              cases h0
              exact parseMoreRefs_error _ (le_refl _) h3
            | ok p3 =>
              obtain ⟨rs, ts3⟩ := p3
              simp only [h3] at h0
              cases h4 : expectLit ")" ts3 with
              | error e4 => simp only [h4] at h0; cases h0; exact expectLit_error h4
              | ok ts4 => simp [h4] at h0
      · cases h0; rfl

/-- An error of Parse is a lexing error with a position and a character, or the parsing
error. -/
theorem Parse_error {s : String} {e : ParseError} (h : Parse s = .error e) :
    (∃ p c, e = .invalidToken p c ∧ tokenize s = .error e) ∨
    (e = .unexpectedToken ∧ ∃ toks, tokenize s = .ok toks) := by
  simp only [Parse] at h
  cases h1 : tokenize s with
  | error e1 =>
    simp only [h1] at h
    cases h
    obtain ⟨p, c, rfl⟩ := lexLoop_error _ _ _ _ (le_refl _) h1
    exact Or.inl ⟨p, c, rfl, rfl⟩
  | ok toks =>
    simp only [h1] at h
    exact Or.inr ⟨parseTokens_error h, toks, rfl⟩

/-- Parse never reports a used-up loop budget. -/
theorem Parse_ne_fuelExhausted (s : String) : Parse s ≠ .error .fuelExhausted := by
  intro h
  rcases Parse_error h with ⟨p, c, hc, -⟩ | ⟨hc, -⟩ <;> cases hc

/-! ## Lexing an input piece by piece -/

/-- One token: when the head of the input matches a named group and the rest of the input
lexes to `toks`, the input lexes to the token followed by `toks`. -/
theorem lexLoop_token (cs lexeme rest : List Char) (k : TokenType) {toks : List Token}
    (hm : matchHead cs = some (some k, lexeme, rest))
    (hrest : ∀ pos, lexLoop rest.length pos rest = .ok toks) :
    ∀ pos, lexLoop cs.length pos cs = .ok (⟨k, String.mk lexeme⟩ :: toks) := by
  intro pos
  have hlen := matchHead_length hm
  cases cs with
  | nil => simp [matchHead] at hm
  | cons c cs =>
    simp only [List.length_cons] at hlen
    have h2 : lexLoop cs.length (pos.advance lexeme) rest = .ok toks := by
      rw [lexLoop_fuel cs.length rest.length _ _ (by omega) (le_refl _)]
      exact hrest _
    simp only [List.length_cons, lexLoop, hm, h2]

/-- Whitespace: when the head of the input matches the unnamed group, the input lexes to
what the rest lexes to. -/
theorem lexLoop_space {cs lexeme rest : List Char} {toks : List Token}
    (hm : matchHead cs = some (none, lexeme, rest))
    (hrest : ∀ pos, lexLoop rest.length pos rest = .ok toks) :
    ∀ pos, lexLoop cs.length pos cs = .ok toks := by
  intro pos
  have hlen := matchHead_length hm
  cases cs with
  | nil => simp [matchHead] at hm
  | cons c cs =>
    simp only [List.length_cons] at hlen
    have h2 : lexLoop cs.length (pos.advance lexeme) rest = .ok toks := by
      rw [lexLoop_fuel cs.length rest.length _ _ (by omega) (le_refl _)]
      exact hrest _
    simp only [List.length_cons, lexLoop, hm, h2]

theorem isDigit_mem {c : Char} (h : c.isDigit = true) :
    c ∈ ['0', '1', '2', '3', '4', '5', '6', '7', '8', '9'] := by
  have h2 : c = Char.ofNat c.toNat := (Char.ofNat_toNat c).symm
  have h1 : 48 ≤ c.toNat ∧ c.toNat ≤ 57 := by
    simp only [Char.isDigit, Bool.and_eq_true, decide_eq_true_eq] at h
    obtain ⟨a, b⟩ := h
    have a2 : (48 : UInt32).toNat ≤ c.val.toNat := a
    have b2 : c.val.toNat ≤ (57 : UInt32).toNat := b
    exact ⟨a2, b2⟩
  obtain ⟨a, b⟩ := h1
  generalize c.toNat = n at h2 a b
  subst h2
  interval_cases n <;> decide

/-- A digit starts no other rule of the lexer. -/
theorem isDigit_rules {c : Char} (h : c.isDigit = true) :
    isSpace c = false ∧ c.isAlpha = false ∧ c ≠ '-' ∧ isOperatorChar c = false := by
  have hm := isDigit_mem h
  simp only [List.mem_cons, List.mem_singleton, List.not_mem_nil, or_false] at hm
  rcases hm with rfl | rfl | rfl | rfl | rfl | rfl | rfl | rfl | rfl | rfl <;> decide

theorem takeWhile_digits (ds rest : List Char) (hds : ∀ c ∈ ds, c.isDigit = true)
    (hrest : ∀ c ∈ rest.head?, c.isDigit = false) :
    (ds ++ rest).takeWhile Char.isDigit = ds ∧ (ds ++ rest).dropWhile Char.isDigit = rest := by
  induction ds with
  | nil =>
    cases rest with
    | nil => simp
    | cons c cs =>
      have hc : c.isDigit = false := hrest c (by simp)
      simp [List.takeWhile_cons, List.dropWhile_cons, hc]
  | cons d ds ih =>
    have hd : d.isDigit = true := hds d (by simp)
    have h2 := ih (fun c hc => hds c (by simp [hc]))
    simp [List.takeWhile_cons, List.dropWhile_cons, hd, h2.1, h2.2]

/-- The lexer on a bound: a bound followed by a character that is no digit is one token, and
the grammar takes that token as a bound with the same text. -/
theorem matchHead_bound {b : String} (hb : IsBoundText b) (rest : List Char)
    (hrest : ∀ c ∈ rest.head?, c.isDigit = false) :
    ∃ k, matchHead (b.data ++ rest) = some (some k, b.data, rest) ∧
      ∀ ts, parseBound (⟨k, b⟩ :: ts) = .ok (b, ts) := by
  rcases hb with rfl | ⟨hne, hds⟩
  · exact ⟨.Operators, rfl, fun ts => rfl⟩
  · refine ⟨.CardinalityNum, ?_, fun ts => rfl⟩
    obtain ⟨ds⟩ := b
    simp only at hne hds ⊢
    cases ds with
    | nil => exact absurd rfl hne
    | cons d ds =>
      have hd : d.isDigit = true := hds d (by simp)
      obtain ⟨h1, h2, h3, h4⟩ := isDigit_rules hd
      have h5 := takeWhile_digits ds rest (fun c hc => hds c (by simp [hc])) hrest
      simp [matchHead, h1, h2, h3, h4, hd, h5.1, h5.2]

/-- The tokens of the input `R(A[b1,b2])`. -/
theorem tokenize_one_bounded (b1 b2 : String) (h1 : IsBoundText b1) (h2 : IsBoundText b2) :
    ∃ k1 k2, tokenize ("R(A[" ++ b1 ++ "," ++ b2 ++ "])")
        = .ok [⟨.Ident, "R"⟩, op "(", ⟨.Ident, "A"⟩, op "[", ⟨k1, b1⟩, op ",", ⟨k2, b2⟩,
            op "]", op ")"] ∧
      (∀ ts, parseBound (⟨k1, b1⟩ :: ts) = .ok (b1, ts)) ∧
      (∀ ts, parseBound (⟨k2, b2⟩ :: ts) = .ok (b2, ts)) := by
  obtain ⟨k2, hm2, hp2⟩ := matchHead_bound h2 [']', ')'] (by simp)
  obtain ⟨k1, hm1, hp1⟩ := matchHead_bound h1 (',' :: (b2.data ++ [']', ')'])) (by simp)
  refine ⟨k1, k2, ?_, hp1, hp2⟩
  have e9 : ∀ pos, lexLoop ([] : List Char).length pos [] = .ok [] := fun pos => rfl
  have e8 := lexLoop_token [')'] [')'] [] .Operators rfl e9
  have e7 := lexLoop_token [']', ')'] [']'] [')'] .Operators rfl e8
  have e6 := lexLoop_token _ _ _ _ hm2 e7
  have e5 := lexLoop_token (',' :: (b2.data ++ [']', ')'])) [','] _ .Operators rfl e6
  have e4 := lexLoop_token _ _ _ _ hm1 e5
  have e3 := lexLoop_token ('[' :: (b1.data ++ ',' :: (b2.data ++ [']', ')']))) ['['] _
    .Operators rfl e4
  have e2 := lexLoop_token ('A' :: '[' :: (b1.data ++ ',' :: (b2.data ++ [']', ')']))) ['A'] _
    .Ident rfl e3
  have e1 := lexLoop_token
    ('(' :: 'A' :: '[' :: (b1.data ++ ',' :: (b2.data ++ [']', ')']))) ['('] _ .Operators rfl e2
  have e0 := lexLoop_token
    ('R' :: '(' :: 'A' :: '[' :: (b1.data ++ ',' :: (b2.data ++ [']', ')']))) ['R'] _ .Ident
    rfl e1
  have hd : ("R(A[" ++ b1 ++ "," ++ b2 ++ "])").data
      = 'R' :: '(' :: 'A' :: '[' :: (b1.data ++ ',' :: (b2.data ++ [']', ')'])) := by
    simp [String.data_append]
  simp only [tokenize, hd]
  exact e0 ⟨0, 1, 1⟩

/-! ## Claims -/

/-- C1: completeness of Parse.  When the tokens of an input derive from the production
ERDExpression of the grammar, Parse returns an AST and no error, and the AST's Name is the
text of the leading identifier token. -/
theorem C1_parse_complete (s : String) (toks : List Token)
    (hlex : tokenize s = .ok toks) (hg : GERDExpression toks) :
    ∃ ast, Parse s = .ok ast ∧ ∃ n, toks.head? = some n ∧ n.kind = .Ident ∧ ast.Name = n.value := by
  obtain ⟨name, ms, hne, rfl, hhead⟩ := GERDExpression_input hg (tokenize_wellFormed hlex)
  exact ⟨_, Parse_input hlex hne, _, hhead, rfl, rfl⟩

/-- C1, at the input `R(A[0,*], _pk_)`. -/
theorem C1_parse_complete_witness :
    tokenize "R(A[0,*], _pk_)" = .ok [⟨.Ident, "R"⟩, op "(", ⟨.Ident, "A"⟩, op "[",
        ⟨.CardinalityNum, "0"⟩, op ",", op "*", op "]", op ",", op "_", ⟨.Ident, "pk"⟩,
        op "_", op ")"] ∧
    ∃ ast, Parse "R(A[0,*], _pk_)" = .ok ast ∧ ∃ n,
      [⟨.Ident, "R"⟩, op "(", ⟨.Ident, "A"⟩, op "[", ⟨.CardinalityNum, "0"⟩, op ",", op "*",
        op "]", op ",", op "_", ⟨.Ident, "pk"⟩, op "_", op ")"].head? = some n ∧
      n.kind = .Ident ∧ ast.Name = n.value :=
  ⟨by rfl, C1_parse_complete "R(A[0,*], _pk_)" _ (by rfl)
    (.mk ⟨.Ident, "R"⟩ (op "(") _ (op ")") rfl rfl
      (.cons [⟨.Ident, "A"⟩, op "[", ⟨.CardinalityNum, "0"⟩, op ",", op "*", op "]"] (op ",")
        [op "_", ⟨.Ident, "pk"⟩, op "_"]
        (.card [⟨.Ident, "A"⟩] (op "[") [⟨.CardinalityNum, "0"⟩, op ",", op "*"] (op "]")
          (.plain _ rfl) rfl (.mk _ _ _ (Or.inl rfl) rfl (Or.inr rfl)) rfl)
        rfl
        (.one _ (.attr _ (.pk _ _ _ rfl rfl rfl))))
      rfl)⟩

/-- C2: soundness of Parse.  When Parse returns an AST without error, the complete token
sequence of the input derives from the production ERDExpression of the grammar. -/
theorem C2_parse_sound (s : String) (ast : ERDExpression) (h : Parse s = .ok ast) :
    ∃ toks, tokenize s = .ok toks ∧ GERDExpression toks := by
  obtain ⟨toks, hlex, hp⟩ := Parse_ok h
  obtain ⟨pre, hpre, hg, -⟩ := parseERDExpression_ok (parseTokens_ok hp)
  rw [List.append_nil] at hpre
  subst hpre
  exact ⟨toks, hlex, hg⟩

/-- C2, at the input `R(_pk_)`. -/
theorem C2_parse_sound_witness :
    Parse "R(_pk_)" = .ok ⟨"R", [⟨⟨some "pk", none⟩, none⟩]⟩ ∧
    ∃ toks, tokenize "R(_pk_)" = .ok toks ∧ GERDExpression toks :=
  ⟨by rfl, C2_parse_sound "R(_pk_)" _ (by rfl)⟩

/-- C3: member order and count.  A well-formed input whose parenthesised list holds the
members `ms` (at least one) parses to an AST with exactly as many members, and the i-th
member's Name() is the identifier of the i-th written member. -/
theorem C3_member_order_and_count (s name : String) (ms : List Member)
    (hlex : tokenize s = .ok (inputTokens name ms)) (hne : ms ≠ []) :
    ∃ ast, Parse s = .ok ast ∧ ast.EntitiesAndAttributes.length = ms.length ∧
      ∀ (i : Nat) (h : i < ms.length),
        ∃ r, ast.EntitiesAndAttributes[i]? = some r ∧ r.Name = some (ms.get ⟨i, h⟩).ident := by
  refine ⟨_, Parse_input hlex hne, by simp, ?_⟩
  intro i h
  exact ⟨_, getElem?_map_ref ms i h, Member.ref_Name _⟩

/-- C3, at `relationShip1(Entity1[0,*], A[1,3], normalattr, _pkattr_)`: four members named
Entity1, A, normalattr, pkattr in that order. -/
theorem C3_member_order_and_count_witness :
    (Parse "relationShip1(Entity1[0,*], A[1,3], normalattr, _pkattr_)").map
        (fun e => e.EntitiesAndAttributes.map Ref.Name)
      = .ok [some "Entity1", some "A", some "normalattr", some "pkattr"] ∧
    ∃ ast, Parse "relationShip1(Entity1[0,*], A[1,3], normalattr, _pkattr_)" = .ok ast ∧
      ast.EntitiesAndAttributes.length = 4 ∧
      ∀ (i : Nat) (h : i < 4), ∃ r, ast.EntitiesAndAttributes[i]? = some r ∧
        r.Name = some (([⟨false, "Entity1", some (.number "0", .star)⟩,
          ⟨false, "A", some (.number "1", .number "3")⟩, ⟨false, "normalattr", none⟩,
          ⟨true, "pkattr", none⟩] : List Member).get ⟨i, h⟩).ident :=
  ⟨by rfl, C3_member_order_and_count
    "relationShip1(Entity1[0,*], A[1,3], normalattr, _pkattr_)" "relationShip1"
    [⟨false, "Entity1", some (.number "0", .star)⟩, ⟨false, "A", some (.number "1", .number "3")⟩,
      ⟨false, "normalattr", none⟩, ⟨true, "pkattr", none⟩] (by rfl) (by simp)⟩

/-- C4: IsEntityType and IsRelationship are exact complements: for every ERDExpression,
IsEntityType() is the negation of IsRelationship(), so exactly one of the two is true. -/
theorem C4_entity_type_complement (e : ERDExpression) :
    e.IsEntityType = !e.IsRelationship ∧
    ((e.IsEntityType = true ∧ e.IsRelationship = false) ∨
      (e.IsEntityType = false ∧ e.IsRelationship = true)) := by
  refine ⟨rfl, ?_⟩
  simp only [ERDExpression.IsEntityType]
  cases e.IsRelationship <;> simp

/-- C5: IsRelationship() is true exactly when some member's Cardinality is present; an
expression without such a member, in particular one with no member at all, is an entity
type. -/
theorem C5_relationship_iff_cardinality (e : ERDExpression) :
    (e.IsRelationship = true ↔ ∃ r ∈ e.EntitiesAndAttributes, r.Cardinality ≠ none) ∧
    ((∀ r ∈ e.EntitiesAndAttributes, r.Cardinality = none) → e.IsEntityType = true) ∧
    (e.EntitiesAndAttributes = [] → e.IsEntityType = true) := by
  have h1 : e.IsRelationship = true ↔ ∃ r ∈ e.EntitiesAndAttributes, r.Cardinality ≠ none := by
    simp only [ERDExpression.IsRelationship, isRelationshipLoop_iff, Option.isSome_iff_ne_none]
  have h2 : (∀ r ∈ e.EntitiesAndAttributes, r.Cardinality = none) → e.IsEntityType = true := by
    intro hall
    have hn : ¬ e.IsRelationship = true := by
      rw [h1]
      rintro ⟨r, hr, hc⟩
      exact hc (hall r hr)
    simp only [ERDExpression.IsEntityType]
    cases hrel : e.IsRelationship with
    | false => rfl
    | true => exact absurd hrel hn
  refine ⟨h1, h2, ?_⟩
  intro hnil
  apply h2
  intro r hr
  rw [hnil] at hr
  cases hr

/-- C6: in a successfully parsed input, the i-th member's IsEntityRef() is true exactly when
the i-th member was written with bracketed bounds; a member written without them has
IsEntityRef() false. -/
theorem C6_entity_ref_iff_brackets (s : String) (ast : ERDExpression) (hp : Parse s = .ok ast) :
    (∃ name ms, tokenize s = .ok (inputTokens name ms)) ∧
    ∀ name ms, tokenize s = .ok (inputTokens name ms) →
      ast.EntitiesAndAttributes.length = ms.length ∧
      ∀ (i : Nat) (h : i < ms.length), ∃ r, ast.EntitiesAndAttributes[i]? = some r ∧
        (r.IsEntityRef = true ↔ (ms.get ⟨i, h⟩).card ≠ none) ∧
        ((ms.get ⟨i, h⟩).card = none → r.IsEntityRef = false) := by
  constructor
  · obtain ⟨name, ms, -, hlex, -⟩ := Parse_ok_input hp
    exact ⟨name, ms, hlex⟩
  · intro name ms hlex
    obtain ⟨-, rfl⟩ := Parse_eq_of_input hlex hp
    refine ⟨by simp, ?_⟩
    intro i h
    refine ⟨_, getElem?_map_ref ms i h, ?_, ?_⟩
    · rw [Member.ref_IsEntityRef, Option.isSome_iff_ne_none]
    · intro hc
      rw [Member.ref_IsEntityRef, hc]
      rfl

/-- C6, at `R(A[0,*], b)`: the first member is an entity reference, the second is not. -/
theorem C6_entity_ref_iff_brackets_witness :
    Parse "R(A[0,*], b)"
      = .ok ⟨"R", [⟨⟨none, some "A"⟩, some ⟨"0", "*"⟩⟩, ⟨⟨none, some "b"⟩, none⟩]⟩ ∧
    tokenize "R(A[0,*], b)"
      = .ok (inputTokens "R" [⟨false, "A", some (.number "0", .star)⟩, ⟨false, "b", none⟩]) ∧
    (Parse "R(A[0,*], b)").map (fun e => e.EntitiesAndAttributes.map Ref.IsEntityRef)
      = .ok [true, false] ∧
    ([⟨⟨none, some "A"⟩, some ⟨"0", "*"⟩⟩, ⟨⟨none, some "b"⟩, none⟩] : List Ref).length
      = ([⟨false, "A", some (.number "0", .star)⟩, ⟨false, "b", none⟩] : List Member).length ∧
    ∀ (i : Nat) (h : i < 2),
      ∃ r, ([⟨⟨none, some "A"⟩, some ⟨"0", "*"⟩⟩, ⟨⟨none, some "b"⟩, none⟩] : List Ref)[i]?
          = some r ∧
        (r.IsEntityRef = true ↔
          (([⟨false, "A", some (.number "0", .star)⟩, ⟨false, "b", none⟩] : List Member).get
            ⟨i, h⟩).card ≠ none) ∧
        ((([⟨false, "A", some (.number "0", .star)⟩, ⟨false, "b", none⟩] : List Member).get
            ⟨i, h⟩).card = none → r.IsEntityRef = false) :=
  ⟨by rfl, by rfl, by rfl, (C6_entity_ref_iff_brackets "R(A[0,*], b)"
    ⟨"R", [⟨⟨none, some "A"⟩, some ⟨"0", "*"⟩⟩, ⟨⟨none, some "b"⟩, none⟩]⟩ (by rfl)).2 "R"
    [⟨false, "A", some (.number "0", .star)⟩, ⟨false, "b", none⟩] (by rfl)⟩

/-- C7: primary-key marking.  In a successfully parsed input a member written `_x_` has
IsPK() true, a member written `x` has IsPK() false, and in both cases Name() is `x`. -/
theorem C7_primary_key_marking (s : String) (ast : ERDExpression) (hp : Parse s = .ok ast) :
    (∃ name ms, tokenize s = .ok (inputTokens name ms)) ∧
    ∀ name ms, tokenize s = .ok (inputTokens name ms) →
      ast.EntitiesAndAttributes.length = ms.length ∧
      ∀ (i : Nat) (h : i < ms.length), ∃ r, ast.EntitiesAndAttributes[i]? = some r ∧
        r.RefName.IsPK = (ms.get ⟨i, h⟩).pk ∧
        r.RefName.Name = some (ms.get ⟨i, h⟩).ident ∧
        r.Name = some (ms.get ⟨i, h⟩).ident := by
  constructor
  · obtain ⟨name, ms, -, hlex, -⟩ := Parse_ok_input hp
    exact ⟨name, ms, hlex⟩
  · intro name ms hlex
    obtain ⟨-, rfl⟩ := Parse_eq_of_input hlex hp
    refine ⟨by simp, ?_⟩
    intro i h
    exact ⟨_, getElem?_map_ref ms i h, Member.ref_IsPK _, Member.ref_Name _, Member.ref_Name _⟩

/-- C7, at `R(_pk_)`: an entity type with a single member, a primary key named `pk` that is
not an entity reference. -/
theorem C7_primary_key_marking_witness :
    (∃ r, Parse "R(_pk_)" = .ok ⟨"R", [r]⟩ ∧
      (ERDExpression.mk "R" [r]).IsEntityType = true ∧ r.RefName.IsPK = true ∧
      r.Name = some "pk" ∧ r.IsEntityRef = false) ∧
    tokenize "R(_pk_)" = .ok (inputTokens "R" [⟨true, "pk", none⟩]) ∧
    ([⟨⟨some "pk", none⟩, none⟩] : List Ref).length = ([⟨true, "pk", none⟩] : List Member).length ∧
    ∀ (i : Nat) (h : i < 1),
      ∃ r, ([⟨⟨some "pk", none⟩, none⟩] : List Ref)[i]? = some r ∧
        r.RefName.IsPK = (([⟨true, "pk", none⟩] : List Member).get ⟨i, h⟩).pk ∧
        r.RefName.Name = some (([⟨true, "pk", none⟩] : List Member).get ⟨i, h⟩).ident ∧
        r.Name = some (([⟨true, "pk", none⟩] : List Member).get ⟨i, h⟩).ident :=
  ⟨⟨⟨⟨some "pk", none⟩, none⟩, by rfl, by rfl, by rfl, by rfl, by rfl⟩, by rfl,
    (C7_primary_key_marking "R(_pk_)" ⟨"R", [⟨⟨some "pk", none⟩, none⟩]⟩ (by rfl)).2 "R"
      [⟨true, "pk", none⟩] (by rfl)⟩

/-- C8: cardinality capture without ordering check.  For bounds `b1` and `b2`, each a digit
string or `*`, the input `R(A[b1,b2])` parses to a relationship with one member whose
cardinality has Min `b1` and Max `b2`; nothing relates the two bounds. -/
theorem C8_cardinality_capture (b1 b2 : String) (h1 : IsBoundText b1) (h2 : IsBoundText b2) :
    Parse ("R(A[" ++ b1 ++ "," ++ b2 ++ "])")
      = .ok ⟨"R", [⟨⟨none, some "A"⟩, some ⟨b1, b2⟩⟩]⟩ ∧
    (ERDExpression.mk "R" [⟨⟨none, some "A"⟩, some ⟨b1, b2⟩⟩]).IsRelationship = true := by
  refine ⟨?_, rfl⟩
  obtain ⟨k1, k2, hlex, hp1, hp2⟩ := tokenize_one_bounded b1 b2 h1 h2
  have hA : parseAttribute (⟨.Ident, "A"⟩ :: op "[" :: ⟨k1, b1⟩ :: op "," :: ⟨k2, b2⟩ ::
      op "]" :: op ")" :: []) = .ok (⟨none, some "A"⟩, op "[" :: ⟨k1, b1⟩ :: op "," ::
      ⟨k2, b2⟩ :: op "]" :: op ")" :: []) := rfl
  have hM : parseMinMax (⟨k1, b1⟩ :: op "," :: ⟨k2, b2⟩ :: op "]" :: op ")" :: [])
      = .ok (⟨b1, b2⟩, op "]" :: op ")" :: []) := by
    have hc : expectLit "," (op "," :: ⟨k2, b2⟩ :: op "]" :: op ")" :: [])
        = .ok (⟨k2, b2⟩ :: op "]" :: op ")" :: []) := rfl
    simp only [parseMinMax, hp1, hc, hp2]
  have hC : parseCardinality (op "[" :: ⟨k1, b1⟩ :: op "," :: ⟨k2, b2⟩ :: op "]" :: op ")" :: [])
      = .ok (some ⟨b1, b2⟩, op ")" :: []) := by
    have hl : (op "[").value = "[" := rfl
    have hc : expectLit "]" (op "]" :: op ")" :: []) = .ok (op ")" :: []) := rfl
    simp only [parseCardinality, hl, if_true, hM, hc]
  have hR : parseRef (⟨.Ident, "A"⟩ :: op "[" :: ⟨k1, b1⟩ :: op "," :: ⟨k2, b2⟩ ::
      op "]" :: op ")" :: []) = .ok (⟨⟨none, some "A"⟩, some ⟨b1, b2⟩⟩, op ")" :: []) := by
    simp only [parseRef, hA, hC]
  have hk : (Token.mk .Ident "R").kind = .Ident := rfl
  have hl : expectLit "(" (op "(" :: ⟨.Ident, "A"⟩ :: op "[" :: ⟨k1, b1⟩ :: op "," ::
      ⟨k2, b2⟩ :: op "]" :: op ")" :: []) = .ok (⟨.Ident, "A"⟩ :: op "[" :: ⟨k1, b1⟩ ::
      op "," :: ⟨k2, b2⟩ :: op "]" :: op ")" :: []) := rfl
  have hmore : parseMoreRefs (op ")" :: []).length (op ")" :: []) = .ok ([], op ")" :: []) := rfl
  have hr : expectLit ")" (op ")" :: []) = .ok [] := rfl
  simp only [Parse, hlex, parseTokens, parseERDExpression, hk, if_true, hl, hR, hmore, hr]

/-- C8, at the bounds 5 and 2, with `R(A[0,*])` and `R(A[*,*])` evaluated as well. -/
theorem C8_cardinality_capture_witness :
    IsBoundText "5" ∧ IsBoundText "2" ∧
    (Parse ("R(A[" ++ "5" ++ "," ++ "2" ++ "])")
        = .ok ⟨"R", [⟨⟨none, some "A"⟩, some ⟨"5", "2"⟩⟩]⟩ ∧
      (ERDExpression.mk "R" [⟨⟨none, some "A"⟩, some ⟨"5", "2"⟩⟩]).IsRelationship = true) ∧
    Parse "R(A[5,2])" = .ok ⟨"R", [⟨⟨none, some "A"⟩, some ⟨"5", "2"⟩⟩]⟩ ∧
    Parse "R(A[0,*])" = .ok ⟨"R", [⟨⟨none, some "A"⟩, some ⟨"0", "*"⟩⟩]⟩ ∧
    Parse "R(A[*,*])" = .ok ⟨"R", [⟨⟨none, some "A"⟩, some ⟨"*", "*"⟩⟩]⟩ :=
  ⟨Or.inr ⟨by decide, by decide⟩, Or.inr ⟨by decide, by decide⟩,
    C8_cardinality_capture "5" "2" (Or.inr ⟨by decide, by decide⟩) (Or.inr ⟨by decide, by decide⟩),
    by rfl, by rfl, by rfl⟩

/-- C9: no partial-parse success.  When Parse succeeds on an input, it fails, at the parsing
stage, on every input whose tokens are those of the first followed by at least one more
token; and the last token of an accepted input is the closing parenthesis. -/
theorem C9_no_partial_parse (s s2 : String) (toks extra : List Token) (ast : ERDExpression)
    (hlex : tokenize s = .ok toks) (hp : Parse s = .ok ast) (hne : extra ≠ [])
    (hlex2 : tokenize s2 = .ok (toks ++ extra)) :
    Parse s2 = .error .unexpectedToken ∧ ∃ init r, toks = init ++ [r] ∧ r.value = ")" := by
  have hpt : parseTokens toks = .ok ast := by
    simpa only [Parse, hlex] using hp
  constructor
  · simp only [Parse, hlex2]
    exact parseTokens_append extra hpt hne
  · obtain ⟨pre, hpre, hg, -⟩ := parseERDExpression_ok (parseTokens_ok hpt)
    rw [List.append_nil] at hpre
    subst hpre
    cases hg with
    | mk n l body r hn hl hbody hr => exact ⟨n :: l :: body, r, by simp, hr⟩

/-- C9, at `R(a)` followed by the token `extra`. -/
theorem C9_no_partial_parse_witness :
    tokenize "R(a)" = .ok [⟨.Ident, "R"⟩, op "(", ⟨.Ident, "a"⟩, op ")"] ∧
    Parse "R(a)" = .ok ⟨"R", [⟨⟨none, some "a"⟩, none⟩]⟩ ∧
    tokenize "R(a) extra"
      = .ok ([⟨.Ident, "R"⟩, op "(", ⟨.Ident, "a"⟩, op ")"] ++ [⟨.Ident, "extra"⟩]) ∧
    Parse "R(a) extra" = .error .unexpectedToken ∧
    ∃ init r, [⟨.Ident, "R"⟩, op "(", ⟨.Ident, "a"⟩, op ")"] = init ++ [r] ∧ r.value = ")" :=
  ⟨by rfl, by rfl, by rfl,
    C9_no_partial_parse "R(a)" "R(a) extra" _ [⟨.Ident, "extra"⟩] _ (by rfl) (by rfl) (by simp)
      (by rfl)⟩

/-- C10: the five malformed inputs of the specification are rejected: `R()`, `R(_a)`,
`R(a[1,])` and `R(a) extra` at the parsing stage, `R(a%)` at the lexing stage, at the `%`. -/
theorem C10_malformed_inputs :
    Parse "R()" = .error .unexpectedToken ∧
    Parse "R(_a)" = .error .unexpectedToken ∧
    Parse "R(a[1,])" = .error .unexpectedToken ∧
    Parse "R(a) extra" = .error .unexpectedToken ∧
    Parse "R(a%)" = .error (.invalidToken ⟨3, 1, 4⟩ '%') ∧
    (tokenize "R()").isOk = true ∧ (tokenize "R(_a)").isOk = true ∧
    (tokenize "R(a[1,])").isOk = true ∧ (tokenize "R(a) extra").isOk = true ∧
    tokenize "R(a%)" = .error (.invalidToken ⟨3, 1, 4⟩ '%') :=
  ⟨by rfl, by rfl, by rfl, by rfl, by rfl, by rfl, by rfl, by rfl, by rfl, by rfl⟩

/-- Every member of an accepted input stands for a written member whose identifier is a
well-formed `Ident` token. -/
theorem Parse_ok_members {s : String} {ast : ERDExpression} (h : Parse s = .ok ast) :
    ast.EntitiesAndAttributes ≠ [] ∧
    ∀ r ∈ ast.EntitiesAndAttributes, ∃ m : Member, r = m.ref ∧
      lexemeOfKind .Ident m.ident.data = true := by
  obtain ⟨name, ms, hne, hlex, rfl⟩ := Parse_ok_input h
  refine ⟨by simpa using hne, ?_⟩
  intro r hr
  obtain ⟨m, hm, rfl⟩ := List.mem_map.mp hr
  exact ⟨m, rfl, tokenize_wellFormed hlex _ (ident_mem_inputTokens name ms m hm)⟩

/-- C13: no partial AST on failure.  For every input, Parse returns either an AST and a nil
error, or a nil AST and an error of the lexing or the parsing stage; never both, never
neither. -/
theorem C13_ast_or_error (s : String) :
    ((∃ ast, Parse.values s = (some ast, none)) ∨
      (∃ err, Parse.values s = (none, some err) ∧ err ≠ .fuelExhausted)) ∧
    ¬ (∃ ast err, Parse.values s = (some ast, some err)) ∧
    Parse.values s ≠ (none, none) := by
  cases h : Parse s with
  | ok ast =>
    simp [Parse.values, h]
  | error err =>
    have hne : err ≠ .fuelExhausted := by
      rintro rfl
      exact Parse_ne_fuelExhausted s h
    simp [Parse.values, h, hne]

/-- C14: the example of the doc comment of Parse, `R(a, b, _c_,_d_, e -> R2(k))`, lexes to 21
tokens, among them the arrow, and is rejected at the parsing stage: no AST is returned. -/
theorem C14_doc_example_rejected :
    tokenize "R(a, b, _c_,_d_, e -> R2(k))"
      = .ok [⟨.Ident, "R"⟩, op "(", ⟨.Ident, "a"⟩, op ",", ⟨.Ident, "b"⟩, op ",", op "_",
          ⟨.Ident, "c"⟩, op "_", op ",", op "_", ⟨.Ident, "d"⟩, op "_", op ",", ⟨.Ident, "e"⟩,
          op "->", ⟨.Ident, "R2"⟩, op "(", ⟨.Ident, "k"⟩, op ")", op ")"] ∧
    Parse "R(a, b, _c_,_d_, e -> R2(k))" = .error .unexpectedToken ∧
    Parse.values "R(a, b, _c_,_d_, e -> R2(k))" = (none, some .unexpectedToken) ∧
    Parse "R(a, b, _c_,_d_, e)" = .ok ⟨"R", [⟨⟨none, some "a"⟩, none⟩, ⟨⟨none, some "b"⟩, none⟩,
      ⟨⟨some "c", none⟩, none⟩, ⟨⟨some "d", none⟩, none⟩, ⟨⟨none, some "e"⟩, none⟩]⟩ :=
  ⟨by rfl, by rfl, by rfl, by rfl⟩

/-- The tokens of a written input are identifiers, numbers, and the seven structural tokens
the grammar names. -/
theorem inputTokens_kinds (name : String) (ms : List Member) :
    ∀ t ∈ inputTokens name ms,
      t.kind ≠ .Operators ∨ t.value ∈ ["_", "(", ")", "[", "]", ",", "*"] := by
  have hmt : ∀ m : Member, ∀ t ∈ m.tokens,
      t.kind ≠ .Operators ∨ t.value ∈ ["_", "(", ")", "[", "]", ",", "*"] := by
    intro m
    obtain ⟨pk, ident, card⟩ := m
    cases pk <;> rcases card with _ | ⟨lo, hi⟩
    · simp [Member.tokens, op]
    · cases lo <;> cases hi <;> simp [Member.tokens, op, Bound.token]
    · simp [Member.tokens, op]
    · cases lo <;> cases hi <;> simp [Member.tokens, op, Bound.token]
  have hmore : ∀ l : List Member, ∀ t ∈ moreMemberTokens l,
      t.kind ≠ .Operators ∨ t.value ∈ ["_", "(", ")", "[", "]", ",", "*"] := by
    intro l
    induction l with
    | nil => simp [moreMemberTokens]
    | cons m l ih =>
      intro t ht
      simp only [moreMemberTokens] at ht
      rw [List.mem_append, List.mem_cons] at ht
      rcases ht with (rfl | ht) | ht
      · simp [op]
      · exact hmt m t ht
      · exact ih t ht
  intro t ht
  simp only [inputTokens] at ht
  rw [List.mem_append, List.mem_cons, List.mem_cons, List.mem_singleton] at ht
  rcases ht with (rfl | rfl | ht) | rfl
  · simp
  · simp [op]
  · cases ms with
    | nil => simp [memberListTokens] at ht
    | cons m l =>
      simp only [memberListTokens] at ht
      rcases List.mem_append.mp ht with ht | ht
      · exact hmt m t ht
      · exact hmore l t ht
  · simp [op]

theorem arrow_not_mem_inputTokens (name : String) (ms : List Member)
    (hw : ∀ t ∈ inputTokens name ms, t.wellFormed) :
    ∀ t ∈ inputTokens name ms, t.value ≠ "->" := by
  intro t ht hv
  rcases inputTokens_kinds name ms t ht with hk | hl
  · have hwt := hw t ht
    obtain ⟨k, v⟩ := t
    simp only at hv hk
    subst hv
    cases k with
    | Operators => exact hk rfl
    | Ident => exact absurd hwt (by simp only [Token.wellFormed]; decide)
    | CardinalityNum => exact absurd hwt (by simp only [Token.wellFormed]; decide)
  · rw [hv] at hl
    revert hl
    decide

/-- C15: the arrow is lexed and never parsed.  An input that lexes to a token sequence with
an arrow token in it fails at the parsing stage, not in the lexer. -/
theorem C15_arrow_is_rejected (s : String) (toks : List Token) (hlex : tokenize s = .ok toks)
    (harrow : ∃ t ∈ toks, t.value = "->") :
    Parse s = .error .unexpectedToken ∧ (toks.filter (fun t => t.value = "->")) ≠ [] := by
  obtain ⟨t, ht, hv⟩ := harrow
  refine ⟨?_, ?_⟩
  · cases hp : Parse s with
    | ok ast =>
      exfalso
      obtain ⟨name, ms, -, hlex2, -⟩ := Parse_ok_input hp
      rw [hlex] at hlex2
      cases hlex2
      exact arrow_not_mem_inputTokens name ms (tokenize_wellFormed hlex) t ht hv
    | error err =>
      rcases Parse_error hp with ⟨p, c, -, hl⟩ | ⟨rfl, -⟩
      · rw [hlex] at hl; cases hl
      · rfl
  · intro hnil
    have : t ∈ toks.filter (fun t => t.value = "->") := by
      simp [List.mem_filter, ht, hv]
    rw [hnil] at this
    cases this

/-- C15, at `R(a -> b)`. -/
theorem C15_arrow_is_rejected_witness :
    tokenize "R(a -> b)"
      = .ok [⟨.Ident, "R"⟩, op "(", ⟨.Ident, "a"⟩, op "->", ⟨.Ident, "b"⟩, op ")"] ∧
    Parse "R(a -> b)" = .error .unexpectedToken :=
  ⟨by rfl, (C15_arrow_is_rejected "R(a -> b)" _ (by rfl) ⟨op "->", by decide, rfl⟩).1⟩

/-- C17: the Attribute variant invariant.  In the AST of an accepted input every member's
Attribute has exactly one of PK and AttrName set. -/
theorem C17_attribute_one_variant (s : String) (ast : ERDExpression) (hp : Parse s = .ok ast) :
    ∀ r ∈ ast.EntitiesAndAttributes,
      (r.RefName.PK ≠ none ∧ r.RefName.AttrName = none) ∨
      (r.RefName.PK = none ∧ r.RefName.AttrName ≠ none) := by
  intro r hr
  obtain ⟨m, rfl, -⟩ := (Parse_ok_members hp).2 r hr
  obtain ⟨pk, ident, card⟩ := m
  cases pk <;> simp [Member.ref]

/-- C17, at `R(a, _b_)`. -/
theorem C17_attribute_one_variant_witness :
    Parse "R(a, _b_)" = .ok ⟨"R", [⟨⟨none, some "a"⟩, none⟩, ⟨⟨some "b", none⟩, none⟩]⟩ ∧
    ∀ r ∈ ([⟨⟨none, some "a"⟩, none⟩, ⟨⟨some "b", none⟩, none⟩] : List Ref),
      (r.RefName.PK ≠ none ∧ r.RefName.AttrName = none) ∨
      (r.RefName.PK = none ∧ r.RefName.AttrName ≠ none) :=
  ⟨by rfl, C17_attribute_one_variant "R(a, _b_)" _ (by rfl)⟩

theorem isSpace_cases {c : Char} (h : isSpace c = true) :
    c = Char.ofNat 9 ∨ c = Char.ofNat 10 ∨ c = Char.ofNat 12 ∨ c = Char.ofNat 13 ∨ c = ' ' := by
  simpa only [isSpace, Bool.or_eq_true, decide_eq_true_eq, or_assoc] using h

/-- A whitespace character starts no named rule of the lexer. -/
theorem isSpace_rules {c : Char} (h : isSpace c = true) :
    c.isAlpha = false ∧ c.isAlphanum = false ∧ c.isDigit = false ∧ c ≠ '-' ∧
      isOperatorChar c = false := by
  rcases isSpace_cases h with rfl | rfl | rfl | rfl | rfl <;> decide

theorem isAlpha_not_space {c : Char} (h : c.isAlpha = true) : isSpace c = false := by
  cases hs : isSpace c with
  | false => rfl
  | true => rw [(isSpace_rules hs).1] at h; cases h

/-- A run: when every character of `l` satisfies `p` and the first character after it does
not, `takeWhile p` takes exactly `l`. -/
theorem takeWhile_run (p : Char → Bool) (l rest : List Char) (hl : ∀ c ∈ l, p c = true)
    (hrest : ∀ c ∈ rest.head?, p c = false) :
    (l ++ rest).takeWhile p = l ∧ (l ++ rest).dropWhile p = rest := by
  induction l with
  | nil =>
    cases rest with
    | nil => simp
    | cons c cs =>
      have hc : p c = false := hrest c (by simp)
      simp [List.takeWhile_cons, List.dropWhile_cons, hc]
  | cons d l ih =>
    have hd : p d = true := hl d (by simp)
    have h2 := ih (fun c hc => hl c (by simp [hc]))
    simp [List.takeWhile_cons, List.dropWhile_cons, hd, h2.1, h2.2]

/-- The lexer on an identifier followed by a character that is no letter and no digit. -/
theorem matchHead_ident {x : String} (hx : IsIdentText x) (rest : List Char)
    (hrest : ∀ c ∈ rest.head?, c.isAlphanum = false) :
    matchHead (x.data ++ rest) = some (some .Ident, x.data, rest) := by
  obtain ⟨c, cs, hdata, hc, hcs⟩ := hx
  have h5 := takeWhile_run Char.isAlphanum cs rest hcs hrest
  rw [hdata]
  simp [matchHead, isAlpha_not_space hc, hc, h5.1, h5.2]

/-- The lexer on a bound, with the written bound it is the token of. -/
theorem matchHead_written_bound {b : String} (hb : IsBoundText b) (rest : List Char)
    (hrest : ∀ c ∈ rest.head?, c.isDigit = false) :
    ∃ (bd : Bound) (k : TokenType), bd.text = b ∧ bd.token = ⟨k, b⟩ ∧
      matchHead (b.data ++ rest) = some (some k, b.data, rest) := by
  rcases hb with rfl | ⟨hne, hds⟩
  · exact ⟨.star, .Operators, rfl, rfl, rfl⟩
  · refine ⟨.number b, .CardinalityNum, rfl, rfl, ?_⟩
    obtain ⟨ds⟩ := b
    simp only at hne hds ⊢
    cases ds with
    | nil => exact absurd rfl hne
    | cons d ds =>
      have hd : d.isDigit = true := hds d (by simp)
      obtain ⟨h1, h2, h3, h4⟩ := isDigit_rules hd
      have h5 := takeWhile_digits ds rest (fun c hc => hds c (by simp [hc])) hrest
      simp [matchHead, h1, h2, h3, h4, hd, h5.1, h5.2]

/-- The tokens of the input `R(_x_[b1,b2])`. -/
theorem tokenize_pk_bounded (x b1 b2 : String) (hx : IsIdentText x) (h1 : IsBoundText b1)
    (h2 : IsBoundText b2) :
    ∃ lo hi : Bound, lo.text = b1 ∧ hi.text = b2 ∧
      tokenize ("R(_" ++ x ++ "_[" ++ b1 ++ "," ++ b2 ++ "])")
        = .ok (inputTokens "R" [⟨true, x, some (lo, hi)⟩]) := by
  obtain ⟨hi, k2, hhi, hhit, hm2⟩ := matchHead_written_bound h2 [']', ')'] (by simp)
  obtain ⟨lo, k1, hlo, hlot, hm1⟩ :=
    matchHead_written_bound h1 (',' :: (b2.data ++ [']', ')'])) (by simp)
  have hmx := matchHead_ident hx ('_' :: '[' :: (b1.data ++ ',' :: (b2.data ++ [']', ')'])))
    (by simp)
  refine ⟨lo, hi, hlo, hhi, ?_⟩
  have e9 : ∀ pos, lexLoop ([] : List Char).length pos [] = .ok [] := fun pos => rfl
  have e8 := lexLoop_token [')'] [')'] [] .Operators rfl e9
  have e7 := lexLoop_token [']', ')'] [']'] [')'] .Operators rfl e8
  have e6 := lexLoop_token _ _ _ _ hm2 e7
  have e5 := lexLoop_token (',' :: (b2.data ++ [']', ')'])) [','] _ .Operators rfl e6
  have e4 := lexLoop_token _ _ _ _ hm1 e5
  have e3 := lexLoop_token ('[' :: (b1.data ++ ',' :: (b2.data ++ [']', ')']))) ['['] _
    .Operators rfl e4
  have e2 := lexLoop_token ('_' :: '[' :: (b1.data ++ ',' :: (b2.data ++ [']', ')']))) ['_'] _
    .Operators rfl e3
  have e1 := lexLoop_token _ _ _ _ hmx e2
  have e0 := lexLoop_token
    ('_' :: (x.data ++ '_' :: '[' :: (b1.data ++ ',' :: (b2.data ++ [']', ')'])))) ['_'] _
    .Operators rfl e1
  have ea := lexLoop_token
    ('(' :: '_' :: (x.data ++ '_' :: '[' :: (b1.data ++ ',' :: (b2.data ++ [']', ')']))))
    ['('] _ .Operators rfl e0
  have eb := lexLoop_token
    ('R' :: '(' :: '_' :: (x.data ++ '_' :: '[' :: (b1.data ++ ',' :: (b2.data ++ [']', ')']))))
    ['R'] _ .Ident rfl ea
  have hd : ("R(_" ++ x ++ "_[" ++ b1 ++ "," ++ b2 ++ "])").data
      = 'R' :: '(' :: '_' :: (x.data ++ '_' :: '[' :: (b1.data ++ ',' ::
          (b2.data ++ [']', ')']))) := by
    simp [String.data_append]
  have ht : inputTokens "R" [⟨true, x, some (lo, hi)⟩]
      = [⟨.Ident, "R"⟩, op "(", op "_", ⟨.Ident, x⟩, op "_", op "[", ⟨k1, b1⟩, op ",", ⟨k2, b2⟩,
          op "]", op ")"] := by
    simp [inputTokens, memberListTokens, moreMemberTokens, Member.tokens, hlot, hhit]
  simp only [tokenize, hd, ht]
  exact eb ⟨0, 1, 1⟩

/-- The tokens of the input `x()`, for an identifier `x`. -/
theorem tokenize_empty_list (x : String) (hx : IsIdentText x) :
    tokenize (x ++ "()") = .ok [⟨.Ident, x⟩, op "(", op ")"] := by
  have hmx := matchHead_ident hx ['(', ')'] (by simp)
  have e9 : ∀ pos, lexLoop ([] : List Char).length pos [] = .ok [] := fun pos => rfl
  have e8 := lexLoop_token [')'] [')'] [] .Operators rfl e9
  have e7 := lexLoop_token ['(', ')'] ['('] [')'] .Operators rfl e8
  have e6 := lexLoop_token _ _ _ _ hmx e7
  have hd : (x ++ "()").data = x.data ++ ['(', ')'] := by
    simp [String.data_append]
  simp only [tokenize, hd]
  exact e6 ⟨0, 1, 1⟩

/-- C11: non-empty member list.  The AST of an accepted input has at least one member, and an
input whose tokens are a name and an empty pair of parentheses, such as `x()` for an
identifier `x`, is rejected. -/
theorem C11_member_list_nonempty (s : String) :
    (∀ ast, Parse s = .ok ast →
      ast.EntitiesAndAttributes ≠ [] ∧ 1 ≤ ast.EntitiesAndAttributes.length) ∧
    (∀ name, tokenize s = .ok [⟨.Ident, name⟩, op "(", op ")"] →
      Parse s = .error .unexpectedToken) ∧
    (IsIdentText s → Parse (s ++ "()") = .error .unexpectedToken) := by
  refine ⟨?_, ?_, ?_⟩
  · intro ast hp
    have hne := (Parse_ok_members hp).1
    exact ⟨hne, List.length_pos.mpr hne⟩
  · intro name hlex
    exact @Parse_input_nil s name hlex
  · intro hx
    exact @Parse_input_nil (s ++ "()") s (tokenize_empty_list s hx)

/-- C11, at `R(a)` and at `Name()`. -/
theorem C11_member_list_nonempty_witness :
    Parse "R(a)" = .ok ⟨"R", [⟨⟨none, some "a"⟩, none⟩]⟩ ∧
    ([⟨⟨none, some "a"⟩, none⟩] : List Ref) ≠ [] ∧
    tokenize "Name()" = .ok [⟨.Ident, "Name"⟩, op "(", op ")"] ∧
    Parse "Name()" = .error .unexpectedToken ∧
    IsIdentText "Name" ∧ Parse ("Name" ++ "()") = .error .unexpectedToken :=
  ⟨by rfl, ((C11_member_list_nonempty "R(a)").1 _ (by rfl)).1, by rfl,
    (C11_member_list_nonempty "Name()").2.1 "Name" (by rfl),
    ⟨'N', ['a', 'm', 'e'], rfl, by decide, by decide⟩,
    (C11_member_list_nonempty "Name").2.2 ⟨'N', ['a', 'm', 'e'], rfl, by decide, by decide⟩⟩

/-- C18: a primary-key marker and a cardinality are independent.  For every identifier `x`
and bounds `b1`, `b2` the input `R(_x_[b1,b2])` parses to one member that is a primary key,
an entity reference and named `x`, and the expression is a relationship. -/
theorem C18_pk_with_cardinality (x b1 b2 : String) (hx : IsIdentText x) (h1 : IsBoundText b1)
    (h2 : IsBoundText b2) :
    ∃ r : Ref, Parse ("R(_" ++ x ++ "_[" ++ b1 ++ "," ++ b2 ++ "])") = .ok ⟨"R", [r]⟩ ∧
      r = ⟨⟨some x, none⟩, some ⟨b1, b2⟩⟩ ∧
      r.RefName.IsPK = true ∧ r.IsEntityRef = true ∧ r.Name = some x ∧
      (ERDExpression.mk "R" [r]).IsRelationship = true ∧
      (ERDExpression.mk "R" [r]).IsEntityType = false := by
  obtain ⟨lo, hi, hlo, hhi, hlex⟩ := tokenize_pk_bounded x b1 b2 hx h1 h2
  have hp := Parse_input hlex (by simp)
  refine ⟨⟨⟨some x, none⟩, some ⟨b1, b2⟩⟩, ?_, rfl, rfl, rfl, rfl, rfl, rfl⟩
  rw [hp]
  simp [Member.ref, hlo, hhi]

/-- C18, at `R(_id9_[1,*])`. -/
theorem C18_pk_with_cardinality_witness :
    IsIdentText "id9" ∧ IsBoundText "1" ∧ IsBoundText "*" ∧
    Parse "R(_id9_[1,*])" = .ok ⟨"R", [⟨⟨some "id9", none⟩, some ⟨"1", "*"⟩⟩]⟩ ∧
    ∃ r : Ref, Parse ("R(_" ++ "id9" ++ "_[" ++ "1" ++ "," ++ "*" ++ "])") = .ok ⟨"R", [r]⟩ ∧
      r = ⟨⟨some "id9", none⟩, some ⟨"1", "*"⟩⟩ ∧
      r.RefName.IsPK = true ∧ r.IsEntityRef = true ∧ r.Name = some "id9" ∧
      (ERDExpression.mk "R" [r]).IsRelationship = true ∧
      (ERDExpression.mk "R" [r]).IsEntityType = false :=
  ⟨⟨'i', ['d', '9'], rfl, by decide, by decide⟩, Or.inr ⟨by decide, by decide⟩, Or.inl rfl,
    by rfl,
    C18_pk_with_cardinality "id9" "1" "*" ⟨'i', ['d', '9'], rfl, by decide, by decide⟩
      (Or.inr ⟨by decide, by decide⟩) (Or.inl rfl)⟩

/-! ## The lexer and the lexical rules of the specification -/

theorem isOperatorChar_cases {c : Char} (h : isOperatorChar c = true) :
    c = ',' ∨ c = '(' ∨ c = ')' ∨ c = '_' ∨ c = '[' ∨ c = ']' ∨ c = '*' := by
  simpa only [isOperatorChar, Bool.or_eq_true, decide_eq_true_eq, or_assoc] using h

/-- A structural character starts no other rule of the lexer. -/
theorem isOperatorChar_rules {c : Char} (h : isOperatorChar c = true) :
    isSpace c = false ∧ c.isAlpha = false ∧ c.isAlphanum = false ∧ c.isDigit = false ∧
      c ≠ '-' := by
  rcases isOperatorChar_cases h with rfl | rfl | rfl | rfl | rfl | rfl | rfl <;> decide

theorem isAlphanum_cases {c : Char} (h : c.isAlphanum = true) :
    c.isAlpha = true ∨ c.isDigit = true := by
  simpa [Char.isAlphanum] using h

theorem isAlphanum_not_space {c : Char} (h : c.isAlphanum = true) : isSpace c = false := by
  cases hs : isSpace c with
  | false => rfl
  | true => rw [(isSpace_rules hs).2.1] at h; cases h

theorem isAlpha_not_digit {c : Char} (h : c.isAlpha = true) : c.isDigit = false := by
  cases hd : c.isDigit with
  | false => rfl
  | true => rw [(isDigit_rules hd).2.1] at h; cases h

/-- The first character of a matched text tells the rule: whitespace, letter, `-` of the
arrow, structural character, digit. -/
theorem RuleMatches_cons {c : Char} {l : List Char} (h : RuleMatches (c :: l)) :
    (isSpace c = true ∧ ∀ d ∈ l, isSpace d = true) ∨
    (c.isAlpha = true ∧ ∀ d ∈ l, d.isAlphanum = true) ∨
    (c = '-' ∧ l = ['>']) ∨
    (isOperatorChar c = true ∧ l = []) ∨
    (c.isDigit = true ∧ ∀ d ∈ l, d.isDigit = true) := by
  rcases h with ⟨-, hs⟩ | ⟨c2, cs, heq, hc, hcs⟩ | hop | ⟨-, hd⟩
  · exact Or.inl ⟨hs c (by simp), fun d hd => hs d (by simp [hd])⟩
  · cases heq
    exact Or.inr (Or.inl ⟨hc, hcs⟩)
  · simp only [List.mem_cons, List.cons.injEq, List.mem_singleton, List.not_mem_nil,
      or_false] at hop
    rcases hop with ⟨rfl, rfl⟩ | ⟨rfl, rfl⟩ | ⟨rfl, rfl⟩ | ⟨rfl, rfl⟩ | ⟨rfl, rfl⟩ |
      ⟨rfl, rfl⟩ | ⟨rfl, rfl⟩ | ⟨rfl, rfl⟩
    · exact Or.inr (Or.inr (Or.inl ⟨rfl, rfl⟩))
    all_goals exact Or.inr (Or.inr (Or.inr (Or.inl ⟨by decide, rfl⟩)))
  · exact Or.inr (Or.inr (Or.inr (Or.inr ⟨hd c (by simp), fun d h => hd d (by simp [h])⟩)))

theorem not_RuleMatches_nil : ¬ RuleMatches [] := by
  rintro (⟨h, -⟩ | ⟨c, cs, h, -⟩ | h | ⟨h, -⟩)
  · exact h rfl
  · cases h
  · simp at h
  · exact h rfl

/-- What the lexer matches is matched by a rule of the specification. -/
theorem matchHead_RuleMatches {cs lexeme rest : List Char} {g : Option TokenType}
    (h : matchHead cs = some (g, lexeme, rest)) : RuleMatches lexeme := by
  cases cs with
  | nil => simp [matchHead] at h
  | cons c cs =>
    simp only [matchHead] at h
    split at h
    · rename_i hc
      simp only [Option.some.injEq, Prod.mk.injEq] at h
      obtain ⟨-, hl, -⟩ := h
      subst hl
      refine Or.inl ⟨by simp, ?_⟩
      intro d hd
      rcases List.mem_cons.mp hd with rfl | hd
      · exact hc
      · exact List.mem_takeWhile_imp hd
    · split at h
      · rename_i hc
        simp only [Option.some.injEq, Prod.mk.injEq] at h
        obtain ⟨-, hl, -⟩ := h
        subst hl
        exact Or.inr (Or.inl ⟨c, _, rfl, hc, fun d hd => List.mem_takeWhile_imp hd⟩)
      · split at h
        · cases cs with
          | nil => simp at h
          | cons d rest2 =>
            simp only at h
            split at h
            · rename_i hc hd
              simp only [Option.some.injEq, Prod.mk.injEq] at h
              obtain ⟨-, hl, -⟩ := h
              subst hl; subst hc; subst hd
              exact Or.inr (Or.inr (Or.inl (by simp)))
            · simp at h
        · split at h
          · rename_i hc
            simp only [Option.some.injEq, Prod.mk.injEq] at h
            obtain ⟨-, hl, -⟩ := h
            subst hl
            refine Or.inr (Or.inr (Or.inl ?_))
            rcases isOperatorChar_cases hc with rfl | rfl | rfl | rfl | rfl | rfl | rfl <;> simp
          · split at h
            · rename_i hc
              simp only [Option.some.injEq, Prod.mk.injEq] at h
              obtain ⟨-, hl, -⟩ := h
              subst hl
              refine Or.inr (Or.inr (Or.inr ⟨by simp, ?_⟩))
              intro d hd
              rcases List.mem_cons.mp hd with rfl | hd
              · exact hc
              · exact List.mem_takeWhile_imp hd
            · simp at h

/-- The lexer finds no match at the head exactly when no rule of the specification matches
there. -/
theorem matchHead_none_iff (c : Char) (t : List Char) :
    matchHead (c :: t) = none ↔ NoRuleAt (c :: t) := by
  constructor
  · intro h lx rest heq hm
    cases lx with
    | nil => exact not_RuleMatches_nil hm
    | cons c2 l =>
      simp only [List.cons_append, List.cons.injEq] at heq
      obtain ⟨rfl, rfl⟩ := heq
      simp only [matchHead] at h
      rcases RuleMatches_cons hm with ⟨hs, -⟩ | ⟨ha, -⟩ | ⟨rfl, rfl⟩ | ⟨ho, -⟩ | ⟨hd, -⟩
      · simp [hs] at h
      · simp [isAlpha_not_space ha, ha] at h
      · have hs : isSpace '-' = false := by decide
        have ha : Char.isAlpha '-' = false := by decide
        simp [hs, ha] at h
      · obtain ⟨h1, h2, -, -, h5⟩ := isOperatorChar_rules ho
        simp [h1, h2, h5, ho] at h
      · obtain ⟨h1, h2, h3, h4⟩ := isDigit_rules hd
        simp [h1, h2, h3, h4, hd] at h
  · intro h
    cases hm : matchHead (c :: t) with
    | none => rfl
    | some p =>
      obtain ⟨g, lx, rest⟩ := p
      exact absurd (matchHead_RuleMatches hm) (h lx rest (matchHead_split hm).1)

theorem run_le_takeWhile (p : Char → Bool) (l r : List Char) (hl : ∀ d ∈ l, p d = true) :
    l.length ≤ ((l ++ r).takeWhile p).length := by
  induction l with
  | nil => simp
  | cons d l ih =>
    have hd : p d = true := hl d (by simp)
    have h2 := ih (fun c hc => hl c (by simp [hc]))
    simp only [List.cons_append, List.takeWhile_cons, hd, if_true, List.length_cons]
    omega

/-- What the lexer matches is at least as long as any text a rule matches at the head. -/
theorem matchHead_longest {cs lexeme rest : List Char} {g : Option TokenType}
    (h : matchHead cs = some (g, lexeme, rest)) (lx2 rest2 : List Char)
    (heq : cs = lx2 ++ rest2) (hm : RuleMatches lx2) : lx2.length ≤ lexeme.length := by
  cases lx2 with
  | nil => simp
  | cons c l =>
    subst heq
    simp only [List.cons_append, matchHead] at h
    rcases RuleMatches_cons hm with ⟨hs, hl⟩ | ⟨ha, hl⟩ | ⟨rfl, rfl⟩ | ⟨ho, rfl⟩ | ⟨hd, hl⟩
    · simp only [hs, if_true, Option.some.injEq, Prod.mk.injEq] at h
      obtain ⟨-, rfl, -⟩ := h
      have := run_le_takeWhile isSpace l rest2 hl
      simp only [List.length_cons]
      omega
    · simp only [isAlpha_not_space ha, ha, if_true, Bool.false_eq_true, if_false,
        Option.some.injEq, Prod.mk.injEq] at h
      obtain ⟨-, rfl, -⟩ := h
      have := run_le_takeWhile Char.isAlphanum l rest2 hl
      simp only [List.length_cons]
      omega
    · have hs : isSpace '-' = false := by decide
      have ha : Char.isAlpha '-' = false := by decide
      simp [hs, ha] at h
      obtain ⟨-, rfl, -⟩ := h
      simp
    · obtain ⟨h1, h2, -, -, h5⟩ := isOperatorChar_rules ho
      simp [h1, h2, h5, ho] at h
      obtain ⟨-, rfl, -⟩ := h
      simp
    · obtain ⟨h1, h2, h3, h4⟩ := isDigit_rules hd
      simp only [h1, h2, h3, h4, hd, if_true, Bool.false_eq_true, if_false,
        Option.some.injEq, Prod.mk.injEq] at h
      obtain ⟨-, rfl, -⟩ := h
      have := run_le_takeWhile Char.isDigit l rest2 hl
      simp only [List.length_cons]
      omega

/-- The lexer's match is the longest match of the specification. -/
theorem matchHead_LongestMatch {cs lexeme rest : List Char} {g : Option TokenType}
    (h : matchHead cs = some (g, lexeme, rest)) : LongestMatch cs lexeme :=
  ⟨matchHead_RuleMatches h, ⟨rest, (matchHead_split h).1⟩, matchHead_longest h⟩

/-- The longest match of the specification is the lexer's match. -/
theorem LongestMatch_matchHead {lx rest : List Char} (h : LongestMatch (lx ++ rest) lx) :
    ∃ g, matchHead (lx ++ rest) = some (g, lx, rest) := by
  obtain ⟨hm, -, hlong⟩ := h
  cases hcs : lx ++ rest with
  | nil =>
    have : lx = [] := (List.append_eq_nil.mp hcs).1
    subst this
    exact absurd hm not_RuleMatches_nil
  | cons c t =>
    cases hmh : matchHead (c :: t) with
    | none =>
      have hno := (matchHead_none_iff c t).mp hmh
      exact absurd hm (hno lx rest hcs.symm)
    | some p =>
      obtain ⟨g, lx2, rest2⟩ := p
      have hsplit := (matchHead_split hmh).1
      have h1 : lx.length ≤ lx2.length := matchHead_longest hmh lx rest hcs.symm hm
      have h2 : lx2.length ≤ lx.length :=
        hlong lx2 rest2 (hcs.trans hsplit) (matchHead_RuleMatches hmh)
      have h3 : lx ++ rest = lx2 ++ rest2 := hcs.trans hsplit
      obtain ⟨rfl, rfl⟩ := List.append_inj h3 (by omega)
      exact ⟨g, rfl⟩

/-! ## The position the lexer reports -/

theorem Position.advance_nil (p : Position) : p.advance [] = p := by
  simp [Position.advance]

theorem takeWhile_append_of_all (q : Char → Bool) (l r : List Char) (hl : ∀ d ∈ l, q d = true) :
    (l ++ r).takeWhile q = l ++ r.takeWhile q := by
  induction l with
  | nil => rfl
  | cons d l ih =>
    have hd : q d = true := hl d (by simp)
    simp [List.takeWhile_cons, hd, ih (fun c hc => hl c (by simp [hc]))]

theorem takeWhile_append_of_stop (q : Char → Bool) (l r : List Char)
    (hl : ∃ d ∈ l, q d = false) : (l ++ r).takeWhile q = l.takeWhile q := by
  induction l with
  | nil => obtain ⟨d, hd, -⟩ := hl; cases hd
  | cons d l ih =>
    cases hq : q d with
    | false => simp [List.takeWhile_cons, hq]
    | true =>
      obtain ⟨e, he, hqe⟩ := hl
      rcases List.mem_cons.mp he with rfl | he
      · rw [hq] at hqe; cases hqe
      · simp [List.takeWhile_cons, hq, ih ⟨e, he, hqe⟩]

/-- Moving the position over two texts one after the other is moving it over both. -/
theorem Position.advance_append (p : Position) (l1 l2 : List Char) :
    (p.advance l1).advance l2 = p.advance (l1 ++ l2) := by
  by_cases h2 : l2.count (Char.ofNat 10) = 0
  · have hall : ∀ d ∈ l2.reverse, (fun c => c != Char.ofNat 10) d = true := by
      intro d hd
      have hd2 : d ∈ l2 := List.mem_reverse.mp hd
      have : d ≠ Char.ofNat 10 := by
        rintro rfl
        exact absurd (List.count_pos_iff.mpr hd2) (by omega)
      simpa using this
    by_cases h1 : l1.count (Char.ofNat 10) = 0
    · simp [Position.advance, h1, h2, List.count_append]
      omega
    · simp only [Position.advance, h1, h2, List.count_append, List.length_append, if_true,
        if_false, List.reverse_append, Nat.add_zero]
      rw [takeWhile_append_of_all _ _ _ hall]
      simp only [List.length_append, List.length_reverse, Position.mk.injEq]
      refine ⟨by omega, trivial, by omega⟩
  · have hstop : ∃ d ∈ l2.reverse, (fun c => c != Char.ofNat 10) d = false := by
      have hpos : 0 < l2.count (Char.ofNat 10) := Nat.pos_of_ne_zero h2
      exact ⟨Char.ofNat 10, List.mem_reverse.mpr (List.count_pos_iff.mp hpos), by simp⟩
    have hsum : ¬ (l1.count (Char.ofNat 10) + l2.count (Char.ofNat 10) = 0) := by omega
    simp only [Position.advance, h2, hsum, List.count_append, List.length_append, if_false,
      List.reverse_append, takeWhile_append_of_stop _ _ _ hstop, Position.mk.injEq]
    refine ⟨by omega, by omega, trivial⟩

/-- The position the lexer holds after a text, started at the beginning of the line, is the
position of the character that follows the text. -/
theorem advance_eq_positionAfter (pre : List Char) :
    (Position.mk 0 1 1).advance pre = positionAfter pre := by
  by_cases h : pre.count (Char.ofNat 10) = 0
  · have hall : ∀ d ∈ pre.reverse, (fun c => c != Char.ofNat 10) d = true := by
      intro d hd
      have hd2 : d ∈ pre := List.mem_reverse.mp hd
      have : d ≠ Char.ofNat 10 := by
        rintro rfl
        exact absurd (List.count_pos_iff.mpr hd2) (by omega)
      simpa using this
    simp only [Position.advance, positionAfter, h, if_true, Position.mk.injEq,
      List.takeWhile_eq_self_iff.mpr (fun d hd => hall d hd), List.length_reverse]
    refine ⟨by omega, trivial, by omega⟩
  · simp only [Position.advance, positionAfter, h, if_false, Position.mk.injEq]
    refine ⟨by omega, trivial, trivial⟩

/-! ## One round of the lexer's loop, with a budget that is large enough -/

theorem lexLoop_of_none {c : Char} {t : List Char} (h : matchHead (c :: t) = none) (n : Nat)
    (pos : Position) (hn : (c :: t).length ≤ n) :
    lexLoop n pos (c :: t) = .error (.invalidToken pos c) := by
  cases n with
  | zero => simp at hn
  | succ n => simp only [lexLoop, h]

theorem lexLoop_of_space {cs lexeme rest : List Char} (h : matchHead cs = some (none, lexeme, rest))
    (n : Nat) (pos : Position) (hn : cs.length ≤ n) :
    lexLoop n pos cs = lexLoop n (pos.advance lexeme) rest := by
  have hlen := matchHead_length h
  cases cs with
  | nil => simp [matchHead] at h
  | cons c cs =>
    cases n with
    | zero => simp at hn
    | succ n =>
      simp only [List.length_cons] at hlen hn
      simp only [lexLoop, h]
      exact lexLoop_fuel _ _ _ _ (by omega) (by omega)

theorem lexLoop_of_token {cs lexeme rest : List Char} {k : TokenType}
    (h : matchHead cs = some (some k, lexeme, rest)) (n : Nat) (pos : Position)
    (hn : cs.length ≤ n) :
    lexLoop n pos cs =
      match lexLoop n (pos.advance lexeme) rest with
      | .error e => .error e
      | .ok toks => .ok (⟨k, String.mk lexeme⟩ :: toks) := by
  have hlen := matchHead_length h
  cases cs with
  | nil => simp [matchHead] at h
  | cons c cs =>
    cases n with
    | zero => simp at hn
    | succ n =>
      simp only [List.length_cons] at hlen hn
      simp only [lexLoop, h]
      rw [lexLoop_fuel n (n + 1) _ _ (by omega) (by omega)]

/-- An error of the lexer's loop keeps the character and the position of the rest of the
loop. -/
theorem lexLoop_error_step {cs lexeme rest : List Char} {g : Option TokenType}
    (h : matchHead cs = some (g, lexeme, rest)) (n : Nat) (pos : Position) (hn : cs.length ≤ n)
    (e : ParseError) :
    lexLoop n pos cs = .error e ↔ lexLoop n (pos.advance lexeme) rest = .error e := by
  cases g with
  | none => rw [lexLoop_of_space h n pos hn]
  | some k =>
    rw [lexLoop_of_token h n pos hn]
    cases lexLoop n (pos.advance lexeme) rest with
    | error e2 => simp
    | ok toks => simp

/-- When the scan reaches a position where no rule matches, the lexer fails there. -/
theorem lexLoop_fail_of_scanned : ∀ (pre r : List Char), Scanned pre r →
    ∀ (c : Char) (rest : List Char), r = c :: rest → NoRuleAt r →
    ∀ (n : Nat) (pos : Position), (pre ++ r).length ≤ n →
    lexLoop n pos (pre ++ r) = .error (.invalidToken (pos.advance pre) c) := by
  intro pre r h
  induction h with
  | start r =>
    intro c rest hr hno n pos hn
    subst hr
    rw [Position.advance_nil]
    exact lexLoop_of_none ((matchHead_none_iff c rest).mpr hno) n pos hn
  | step lx pre r hlong _ ih =>
    intro c rest hr hno n pos hn
    obtain ⟨g, hm⟩ := LongestMatch_matchHead hlong
    rw [List.append_assoc] at hn ⊢
    have hlen := matchHead_length hm
    rw [(lexLoop_error_step hm n pos hn _).mpr]
    rw [← Position.advance_append]
    exact ih c rest hr hno n _ (by omega)

/-- When the lexer fails, the scan has reached a position where no rule matches. -/
theorem scanned_of_lexLoop_fail : ∀ (n : Nat) (pos : Position) (cs : List Char) (e : ParseError),
    cs.length ≤ n → lexLoop n pos cs = .error e →
    ∃ pre c rest, cs = pre ++ c :: rest ∧ Scanned pre (c :: rest) ∧ NoRuleAt (c :: rest) := by
  intro n
  induction n with
  | zero =>
    intro pos cs e hn h
    have : cs = [] := List.length_eq_zero.mp (Nat.le_zero.mp hn)
    subst this
    rw [lexLoop_nil] at h
    cases h
  | succ n ih =>
    intro pos cs e hn h
    cases cs with
    | nil => rw [lexLoop_nil] at h; cases h
    | cons c t =>
      cases hm : matchHead (c :: t) with
      | none => exact ⟨[], c, t, rfl, .start _, (matchHead_none_iff c t).mp hm⟩
      | some p =>
        obtain ⟨g, lx, rest⟩ := p
        have hlen := matchHead_length hm
        have hsplit := (matchHead_split hm).1
        simp only [List.length_cons] at hlen hn
        have h2 := (lexLoop_error_step hm (n + 1) pos (by simpa using hn) e).mp h
        rw [lexLoop_fuel (n + 1) n _ _ (by omega) (by omega)] at h2
        obtain ⟨pre, c2, rest2, hr, hsc, hno⟩ := ih _ _ _ (by omega) h2
        refine ⟨lx ++ pre, c2, rest2, ?_, ?_, hno⟩
        · rw [hsplit, hr, List.append_assoc]
        · refine .step lx pre (c2 :: rest2) ?_ hsc
          rw [← hr, ← hsplit]
          exact matchHead_LongestMatch hm

theorem lexemeOfKind_not_space {k : TokenType} {lx : List Char} (h : lexemeOfKind k lx = true) :
    ∀ c ∈ lx, isSpace c = false := by
  cases k with
  | Ident =>
    cases lx with
    | nil => simp [lexemeOfKind] at h
    | cons c cs =>
      simp only [lexemeOfKind, Bool.and_eq_true, List.all_eq_true] at h
      intro d hd
      rcases List.mem_cons.mp hd with rfl | hd
      · exact isAlpha_not_space h.1
      · exact isAlphanum_not_space (h.2 d hd)
  | Operators =>
    match lx, h with
    | [c], h =>
      simp only [lexemeOfKind] at h
      intro d hd
      rw [List.mem_singleton.mp hd]
      exact (isOperatorChar_rules h).1
    | [c, d], h =>
      simp only [lexemeOfKind, Bool.and_eq_true, decide_eq_true_eq] at h
      obtain ⟨rfl, rfl⟩ := h
      decide
  | CardinalityNum =>
    cases lx with
    | nil => simp [lexemeOfKind] at h
    | cons c cs =>
      simp only [lexemeOfKind, Bool.and_eq_true, List.all_eq_true] at h
      intro d hd
      rcases List.mem_cons.mp hd with rfl | hd
      · exact (isDigit_rules h.1).1
      · exact (isDigit_rules (h.2 d hd)).1

theorem matchHead_space_all {cs lexeme rest : List Char}
    (h : matchHead cs = some (none, lexeme, rest)) : ∀ c ∈ lexeme, isSpace c = true := by
  cases cs with
  | nil => simp [matchHead] at h
  | cons c cs =>
    simp only [matchHead] at h
    split at h
    · rename_i hc
      simp only [Option.some.injEq, Prod.mk.injEq, true_and] at h
      obtain ⟨hl, -⟩ := h
      subst hl
      intro d hd
      rcases List.mem_cons.mp hd with rfl | hd
      · exact hc
      · exact List.mem_takeWhile_imp hd
    · split at h
      · simp at h
      · split at h
        · cases cs with
          | nil => simp at h
          | cons d rest2 =>
            simp only at h
            split at h <;> simp at h
        · split at h
          · simp at h
          · split at h <;> simp at h

theorem filter_not_space_of_all_space (l : List Char) (h : ∀ c ∈ l, isSpace c = true) :
    l.filter (fun c => !isSpace c) = [] := by
  rw [List.filter_eq_nil_iff]
  intro c hc
  simp [h c hc]

theorem filter_not_space_of_no_space (l : List Char) (h : ∀ c ∈ l, isSpace c = false) :
    l.filter (fun c => !isSpace c) = l := by
  rw [List.filter_eq_self]
  intro c hc
  simp [h c hc]

/-- When the lexer succeeds, the scan has reached the end of the input, and the tokens are
the input without its whitespace. -/
theorem lexLoop_ok_covers : ∀ (n : Nat) (pos : Position) (cs : List Char) (toks : List Token),
    cs.length ≤ n → lexLoop n pos cs = .ok toks →
    Scanned cs [] ∧ tokenText toks = cs.filter (fun c => !isSpace c) := by
  intro n
  induction n with
  | zero =>
    intro pos cs toks hn h
    have : cs = [] := List.length_eq_zero.mp (Nat.le_zero.mp hn)
    subst this
    rw [lexLoop_nil] at h
    cases h
    exact ⟨.start _, rfl⟩
  | succ n ih =>
    intro pos cs toks hn h
    cases cs with
    | nil =>
      rw [lexLoop_nil] at h
      cases h
      exact ⟨.start _, rfl⟩
    | cons c t =>
      cases hm : matchHead (c :: t) with
      | none => rw [lexLoop_of_none hm _ _ hn] at h; cases h
      | some p =>
        obtain ⟨g, lx, rest⟩ := p
        have hlen := matchHead_length hm
        have hsplit := (matchHead_split hm).1
        have hlong := matchHead_LongestMatch hm
        simp only [List.length_cons] at hlen hn
        have hstep : ∀ toks2, lexLoop n (pos.advance lx) rest = .ok toks2 →
            Scanned (c :: t) [] ∧
              tokenText toks2 = rest.filter (fun c => !isSpace c) := by
          intro toks2 h2
          obtain ⟨hsc, htxt⟩ := ih _ _ _ (by omega) h2
          refine ⟨?_, htxt⟩
          rw [hsplit]
          have h3 := Scanned.step lx rest [] (by rw [List.append_nil, ← hsplit]; exact hlong) hsc
          exact h3
        cases g with
        | none =>
          rw [lexLoop_of_space hm _ _ (by simpa using hn),
            lexLoop_fuel (n + 1) n _ _ (by omega) (by omega)] at h
          obtain ⟨hsc, htxt⟩ := hstep toks h
          refine ⟨hsc, ?_⟩
          rw [htxt, hsplit, List.filter_append,
            filter_not_space_of_all_space lx (matchHead_space_all hm), List.nil_append]
        | some k =>
          rw [lexLoop_of_token hm _ _ (by simpa using hn),
            lexLoop_fuel (n + 1) n _ _ (by omega) (by omega)] at h
          cases h2 : lexLoop n (pos.advance lx) rest with
          | error e => simp [h2] at h
          | ok toks2 =>
            simp only [h2, Except.ok.injEq] at h
            subst h
            obtain ⟨hsc, htxt⟩ := hstep toks2 h2
            refine ⟨hsc, ?_⟩
            rw [hsplit, List.filter_append,
              filter_not_space_of_no_space lx (lexemeOfKind_not_space (matchHead_kind hm))]
            simp only [tokenText, htxt]

/-- C12: lexing failure.  Lexing fails exactly when the scan, going left to right by longest
matches, reaches a position where none of the four rules matches; Parse then returns the
lexing error with the position and the character of that place; and when lexing succeeds the
scan reaches the end of the input and the tokens are the whole input without its
whitespace. -/
theorem C12_lexing_failure (s : String) :
    ((∃ e, tokenize s = .error e) ↔
      ∃ pre c rest, s.data = pre ++ c :: rest ∧ Scanned pre (c :: rest) ∧
        NoRuleAt (c :: rest)) ∧
    (∀ pre c rest, s.data = pre ++ c :: rest → Scanned pre (c :: rest) → NoRuleAt (c :: rest) →
      tokenize s = .error (.invalidToken (positionAfter pre) c) ∧
      Parse s = .error (.invalidToken (positionAfter pre) c) ∧
      (positionAfter pre).Offset = pre.length) ∧
    (∀ toks, tokenize s = .ok toks →
      Scanned s.data [] ∧ tokenText toks = s.data.filter (fun c => !isSpace c)) := by
  have hfail : ∀ pre c rest, s.data = pre ++ c :: rest → Scanned pre (c :: rest) →
      NoRuleAt (c :: rest) → tokenize s = .error (.invalidToken (positionAfter pre) c) := by
    intro pre c rest hs hsc hno
    have h := lexLoop_fail_of_scanned pre (c :: rest) hsc c rest rfl hno s.data.length ⟨0, 1, 1⟩
      (by rw [hs])
    rw [advance_eq_positionAfter, ← hs] at h
    exact h
  refine ⟨⟨?_, ?_⟩, ?_, ?_⟩
  · rintro ⟨e, he⟩
    exact scanned_of_lexLoop_fail _ _ _ e (le_refl _) he
  · rintro ⟨pre, c, rest, hs, hsc, hno⟩
    exact ⟨_, hfail pre c rest hs hsc hno⟩
  · intro pre c rest hs hsc hno
    have h := hfail pre c rest hs hsc hno
    refine ⟨h, ?_, rfl⟩
    simp only [Parse, h]
  · intro toks h
    exact lexLoop_ok_covers _ _ _ toks (le_refl _) h

/-- C12, at `R(a%)`: the scan passes `R`, `(` and `a` and stops at the `%`, offset 3, line 1,
column 4; and at `R(a)`, which lexes to four tokens covering the input. -/
theorem C12_lexing_failure_witness :
    Scanned ['R', '(', 'a'] ['%', ')'] ∧ NoRuleAt ['%', ')'] ∧
    tokenize "R(a%)" = .error (.invalidToken ⟨3, 1, 4⟩ '%') ∧
    Parse "R(a%)" = .error (.invalidToken ⟨3, 1, 4⟩ '%') ∧
    tokenText [⟨.Ident, "R"⟩, op "(", ⟨.Ident, "a"⟩, op ")"] = ['R', '(', 'a', ')'] := by
  have hsc : Scanned ['R', '(', 'a'] ['%', ')'] :=
    .step ['R'] ['(', 'a'] ['%', ')']
      (matchHead_LongestMatch
        (show matchHead ['R', '(', 'a', '%', ')']
          = some (some .Ident, ['R'], ['(', 'a', '%', ')']) from rfl))
      (.step ['('] ['a'] ['%', ')']
        (matchHead_LongestMatch
          (show matchHead ['(', 'a', '%', ')']
            = some (some .Operators, ['('], ['a', '%', ')']) from rfl))
        (.step ['a'] [] ['%', ')']
          (matchHead_LongestMatch
            (show matchHead ['a', '%', ')'] = some (some .Ident, ['a'], ['%', ')']) from rfl))
          (.start _)))
  have hno : NoRuleAt ['%', ')'] := (matchHead_none_iff '%' [')']).mp rfl
  have h := (C12_lexing_failure "R(a%)").2.1 ['R', '(', 'a'] '%' [')'] rfl hsc hno
  exact ⟨hsc, hno, h.1, h.2.1, rfl⟩

/-! ## Whitespace between tokens -/

/-- The lexer's result, position apart, depends neither on the position it starts from nor
on the budget. -/
theorem withoutPosition_lexLoop : ∀ (n : Nat) (pos : Position) (cs : List Char),
    cs.length ≤ n → withoutPosition (lexLoop n pos cs) = lexOutcome cs := by
  intro n
  induction n with
  | zero =>
    intro pos cs hn
    have : cs = [] := List.length_eq_zero.mp (Nat.le_zero.mp hn)
    subst this
    simp [lexOutcome, lexLoop_nil]
  | succ n ih =>
    intro pos cs hn
    cases cs with
    | nil => simp [lexOutcome, lexLoop_nil]
    | cons c t =>
      simp only [lexOutcome]
      cases hm : matchHead (c :: t) with
      | none =>
        rw [lexLoop_of_none hm _ _ hn, lexLoop_of_none hm _ _ (le_refl _)]
        rfl
      | some p =>
        obtain ⟨g, lx, rest⟩ := p
        have hlen := matchHead_length hm
        simp only [List.length_cons] at hlen hn
        have h1 := ih (pos.advance lx) rest (by omega)
        have h2 := ih ((Position.mk 0 1 1).advance lx) rest (by omega)
        cases g with
        | none =>
          rw [lexLoop_of_space hm _ _ (by simpa using hn), lexLoop_of_space hm _ _ (le_refl _),
            lexLoop_fuel (n + 1) n _ _ (by omega) (by omega),
            lexLoop_fuel (c :: t).length n _ _ (by simp; omega) (by omega), h1, h2]
        | some k =>
          rw [lexLoop_of_token hm _ _ (by simpa using hn), lexLoop_of_token hm _ _ (le_refl _),
            lexLoop_fuel (n + 1) n _ _ (by omega) (by omega),
            lexLoop_fuel (c :: t).length n _ _ (by simp; omega) (by omega)]
          cases hl1 : lexLoop n (pos.advance lx) rest with
          | error e1 =>
            cases hl2 : lexLoop n ((Position.mk 0 1 1).advance lx) rest with
            | error e2 =>
              rw [hl1] at h1; rw [hl2] at h2
              simp only [withoutPosition] at h1 h2 ⊢
              rw [h1, h2]
            | ok toks2 =>
              rw [hl1] at h1; rw [hl2, ← h1] at h2
              simp [withoutPosition] at h2
          | ok toks1 =>
            cases hl2 : lexLoop n ((Position.mk 0 1 1).advance lx) rest with
            | error e2 =>
              rw [hl1] at h1; rw [hl2, ← h1] at h2
              simp [withoutPosition] at h2
            | ok toks2 =>
              rw [hl1] at h1; rw [hl2, ← h1] at h2
              simp only [withoutPosition, Except.ok.injEq] at h2 ⊢
              rw [h2]

theorem lexOutcome_nil : lexOutcome [] = .ok [] := rfl

theorem lexOutcome_of_none {c : Char} {t : List Char} (h : matchHead (c :: t) = none) :
    lexOutcome (c :: t) = .error (.invalidToken ⟨0, 0, 0⟩ c) := by
  simp only [lexOutcome]
  rw [lexLoop_of_none h _ _ (le_refl _)]
  rfl

theorem lexOutcome_of_space {cs lexeme rest : List Char}
    (h : matchHead cs = some (none, lexeme, rest)) : lexOutcome cs = lexOutcome rest := by
  have hlen := matchHead_length h
  rw [← withoutPosition_lexLoop cs.length ((Position.mk 0 1 1).advance lexeme) rest (by omega)]
  simp only [lexOutcome]
  rw [lexLoop_of_space h _ _ (le_refl _)]

theorem lexOutcome_of_token {cs lexeme rest : List Char} {k : TokenType}
    (h : matchHead cs = some (some k, lexeme, rest)) :
    lexOutcome cs = (lexOutcome rest).map (fun toks => ⟨k, String.mk lexeme⟩ :: toks) := by
  have hlen := matchHead_length h
  rw [← withoutPosition_lexLoop cs.length ((Position.mk 0 1 1).advance lexeme) rest (by omega)]
  simp only [lexOutcome]
  rw [lexLoop_of_token h _ _ (le_refl _)]
  cases lexLoop cs.length ((Position.mk 0 1 1).advance lexeme) rest with
  | error e => rfl
  | ok toks => rfl

/-- A whitespace character at the head of a text does not change what the text lexes to. -/
theorem lexOutcome_space_cons {c : Char} (hc : isSpace c = true) (r : List Char) :
    lexOutcome (c :: r) = lexOutcome r := by
  have h1 : matchHead (c :: r)
      = some (none, c :: r.takeWhile isSpace, r.dropWhile isSpace) := by
    simp [matchHead, hc]
  rw [lexOutcome_of_space h1]
  cases r with
  | nil => rfl
  | cons d r2 =>
    cases hd : isSpace d with
    | true =>
      have h2 : matchHead (d :: r2)
          = some (none, d :: r2.takeWhile isSpace, r2.dropWhile isSpace) := by
        simp [matchHead, hd]
      rw [lexOutcome_of_space h2]
      simp [List.dropWhile_cons, hd]
    | false => simp [List.dropWhile_cons, hd]

theorem lexOutcome_space_append (ws r : List Char) (hws : ∀ c ∈ ws, isSpace c = true) :
    lexOutcome (ws ++ r) = lexOutcome r := by
  induction ws with
  | nil => rfl
  | cons c ws ih =>
    rw [List.cons_append, lexOutcome_space_cons (hws c (by simp)),
      ih (fun d hd => hws d (by simp [hd]))]

/-- A token stays the lexer's match when the text after it is replaced by one that starts
with the same character or with whitespace. -/
theorem matchHead_token_stable {lx r r2 : List Char} {k : TokenType}
    (h : matchHead (lx ++ r) = some (some k, lx, r))
    (hr : ∀ c ∈ r2.head?, c ∈ r.head? ∨ isSpace c = true) :
    matchHead (lx ++ r2) = some (some k, lx, r2) := by
  have hrun : ∀ (q : Char → Bool) (l : List Char), (∀ c, isSpace c = true → q c = false) →
      (l ++ r).takeWhile q = l → (l ++ r).dropWhile q = r →
      (l ++ r2).takeWhile q = l ∧ (l ++ r2).dropWhile q = r2 := by
    intro q l hq htake hdrop
    have hl : ∀ c ∈ l, q c = true := by
      intro c hc
      rw [← htake] at hc
      exact List.mem_takeWhile_imp hc
    have hhead : ∀ c ∈ r.head?, q c = false := by
      intro c hc
      have h3 := List.head?_dropWhile_not q (l ++ r)
      rw [hdrop] at h3
      rw [Option.mem_def] at hc
      rw [hc] at h3
      exact h3
    refine takeWhile_run q l r2 hl ?_
    intro c hc
    rcases hr c hc with h4 | h4
    · exact hhead c h4
    · exact hq c h4
  cases lx with
  | nil => exact absurd rfl (matchHead_split h).2
  | cons c l =>
    simp only [List.cons_append, matchHead] at h ⊢
    split at h
    · simp at h
    · rename_i hs
      split at h
      · rename_i ha
        simp only [Option.some.injEq, Prod.mk.injEq] at h
        obtain ⟨hk, hl, hd⟩ := h
        cases hk
        simp only [List.cons.injEq, true_and] at hl
        obtain ⟨h5, h6⟩ := hrun Char.isAlphanum l
          (fun d hd2 => (isSpace_rules hd2).2.1) hl hd
        simp [hs, ha, h5, h6]
      · rename_i ha
        split at h
        · rename_i hdash
          cases l with
          | nil =>
            cases r with
            | nil => simp at h
            | cons d r3 =>
              simp only [List.nil_append] at h
              split at h
              · simp at h
              · simp at h
          | cons d l2 =>
            simp only [List.cons_append] at h
            split at h
            · rename_i hd
              simp only [Option.some.injEq, Prod.mk.injEq, List.cons.injEq, true_and] at h
              obtain ⟨hk, hl, -⟩ := h
              cases hk
              have hl2 : l2 = [] := hl.symm
              subst hl2
              subst hdash
              subst hd
              rfl
            · simp at h
        · rename_i hdash
          split at h
          · rename_i ho
            simp only [Option.some.injEq, Prod.mk.injEq, List.cons.injEq, true_and] at h
            obtain ⟨hk, hl, -⟩ := h
            cases hk
            have hl2 : l = [] := hl.symm
            subst hl2
            simp [hs, ha, hdash, ho]
          · rename_i ho
            split at h
            · rename_i hdg
              simp only [Option.some.injEq, Prod.mk.injEq] at h
              obtain ⟨hk, hl, hd⟩ := h
              cases hk
              simp only [List.cons.injEq, true_and] at hl
              obtain ⟨h5, h6⟩ := hrun Char.isDigit l
                (fun d hd2 => (isSpace_rules hd2).2.2.1) hl hd
              simp [hs, ha, hdash, ho, hdg, h5, h6]
            · simp at h

/-- Whitespace inserted at a position between tokens does not change what the lexer
returns, the position of an error apart. -/
theorem lexOutcome_insert : ∀ (pre post : List Char), TokenBoundary pre post →
    ∀ ws : List Char, (∀ c ∈ ws, isSpace c = true) →
    lexOutcome (pre ++ (ws ++ post)) = lexOutcome (pre ++ post) := by
  intro pre post h
  induction h with
  | here post =>
    intro ws hws
    exact lexOutcome_space_append ws post hws
  | space c pre post hc _ ih =>
    intro ws hws
    rw [List.cons_append, List.cons_append, lexOutcome_space_cons hc, lexOutcome_space_cons hc]
    exact ih ws hws
  | lexeme lx pre post hlong _ ih =>
    intro ws hws
    obtain ⟨g, hm⟩ := LongestMatch_matchHead hlong
    rw [List.append_assoc, List.append_assoc]
    cases g with
    | none =>
      have hsp := matchHead_space_all hm
      rw [lexOutcome_space_append lx _ hsp, lexOutcome_space_append lx _ hsp]
      exact ih ws hws
    | some k =>
      have hr : ∀ c ∈ (pre ++ (ws ++ post)).head?,
          c ∈ (pre ++ post).head? ∨ isSpace c = true := by
        intro c hc
        cases pre with
        | cons d pre2 => exact Or.inl hc
        | nil =>
          cases ws with
          | nil => exact Or.inl hc
          | cons w ws2 =>
            simp only [List.nil_append, List.cons_append, List.head?_cons, Option.mem_def,
              Option.some.injEq] at hc
            subst hc
            exact Or.inr (hws _ (by simp))
      have hm2 := matchHead_token_stable hm hr
      rw [lexOutcome_of_token hm2, lexOutcome_of_token hm, ih ws hws]

theorem withoutPosition_tokenize (s : String) :
    withoutPosition (tokenize s) = lexOutcome s.data := rfl

theorem withoutPosition_Parse (s : String) :
    withoutPosition (Parse s) =
      match lexOutcome s.data with
      | .error e => .error e
      | .ok toks => withoutPosition (parseTokens toks) := by
  simp only [Parse, tokenize, lexOutcome]
  cases lexLoop s.data.length ⟨0, 1, 1⟩ s.data with
  | error e => rfl
  | ok toks => rfl

theorem withoutPosition_eq_ok {α : Type} (r : Except ParseError α) (a : α) :
    withoutPosition r = .ok a ↔ r = .ok a := by
  cases r with
  | error e => simp [withoutPosition]
  | ok b => simp [withoutPosition]

theorem withoutPosition_error_iff {α : Type} (r : Except ParseError α) :
    (∃ e, withoutPosition r = .error e) ↔ ∃ e, r = .error e := by
  cases r with
  | error e => simp [withoutPosition]
  | ok b => simp [withoutPosition]

/-- Two whitespace variants lex and parse alike, the position of an error apart. -/
theorem WhitespaceVariant_outcome {s1 s2 : String} (h : WhitespaceVariant s1 s2) :
    lexOutcome s1.data = lexOutcome s2.data := by
  induction h with
  | rel a b hab =>
    obtain ⟨pre, ws, post, h1, h2, hb, hws⟩ := hab
    rw [h1, h2]
    exact (lexOutcome_insert pre post hb ws hws).symm
  | refl a => rfl
  | symm a b _ ih => exact ih.symm
  | trans a b c _ _ ih1 ih2 => exact ih1.trans ih2

/-- C16, as amended.  No token holds a whitespace character, for any input; and two inputs
that differ only by whitespace inserted or removed at positions between tokens lex to the same
tokens and give the same Parse result, up to the position an error reports: the same AST when
either is accepted, an error in both otherwise. -/
theorem C16_whitespace_between_tokens (s1 s2 : String) (h : WhitespaceVariant s1 s2) :
    (∀ (s : String) (toks : List Token), tokenize s = .ok toks →
      ∀ t ∈ toks, t.value.data ≠ [] ∧ ∀ c ∈ t.value.data, isSpace c = false) ∧
    (∀ toks, tokenize s1 = .ok toks ↔ tokenize s2 = .ok toks) ∧
    withoutPosition (Parse s1) = withoutPosition (Parse s2) ∧
    (∀ ast, Parse s1 = .ok ast ↔ Parse s2 = .ok ast) ∧
    ((∃ e, Parse s1 = .error e) ↔ ∃ e, Parse s2 = .error e) := by
  have hlex := WhitespaceVariant_outcome h
  have hparse : withoutPosition (Parse s1) = withoutPosition (Parse s2) := by
    rw [withoutPosition_Parse, withoutPosition_Parse, hlex]
  refine ⟨?_, ?_, hparse, ?_, ?_⟩
  · intro s toks htok t ht
    have hw : lexemeOfKind t.kind t.value.data = true := tokenize_wellFormed htok t ht
    refine ⟨?_, lexemeOfKind_not_space hw⟩
    intro hnil
    rw [hnil] at hw
    cases hk : t.kind <;> rw [hk] at hw <;> simp [lexemeOfKind] at hw
  · intro toks
    rw [← withoutPosition_eq_ok (tokenize s1), ← withoutPosition_eq_ok (tokenize s2),
      withoutPosition_tokenize, withoutPosition_tokenize, hlex]
  · intro ast
    rw [← withoutPosition_eq_ok (Parse s1), ← withoutPosition_eq_ok (Parse s2), hparse]
  · rw [← withoutPosition_error_iff (Parse s1), ← withoutPosition_error_iff (Parse s2), hparse]

/-- C16 as stated fails: `R( a%)` is `R(a%)` with a space inserted between the tokens `(` and
`a`, and Parse returns different results on the two, a lexing error at offset 3 and one at
offset 4. -/
theorem C16_same_result_counterexample :
    InsertsWhitespace "R(a%)" "R( a%)" ∧ WhitespaceVariant "R(a%)" "R( a%)" ∧
    Parse "R(a%)" = .error (.invalidToken ⟨3, 1, 4⟩ '%') ∧
    Parse "R( a%)" = .error (.invalidToken ⟨4, 1, 5⟩ '%') ∧
    Parse "R(a%)" ≠ Parse "R( a%)" := by
  have hb : TokenBoundary ['R', '('] ['a', '%', ')'] :=
    .lexeme ['R'] ['('] ['a', '%', ')']
      (matchHead_LongestMatch
        (show matchHead ['R', '(', 'a', '%', ')']
          = some (some .Ident, ['R'], ['(', 'a', '%', ')']) from rfl))
      (.lexeme ['('] [] ['a', '%', ')']
        (matchHead_LongestMatch
          (show matchHead ['(', 'a', '%', ')']
            = some (some .Operators, ['('], ['a', '%', ')']) from rfl))
        (.here _))
  have hi : InsertsWhitespace "R(a%)" "R( a%)" :=
    ⟨['R', '('], [' '], ['a', '%', ')'], rfl, rfl, hb, by decide⟩
  have h1 : Parse "R(a%)" = .error (.invalidToken ⟨3, 1, 4⟩ '%') := by rfl
  have h2 : Parse "R( a%)" = .error (.invalidToken ⟨4, 1, 5⟩ '%') := by rfl
  refine ⟨hi, .rel _ _ hi, h1, h2, ?_⟩
  rw [h1, h2]
  intro h
  simp at h

/-- C16, at the line of `main`, with and without the space before the bracket: the same
AST. -/
theorem C16_whitespace_between_tokens_witness :
    WhitespaceVariant "relationShip1(Entity1[0,*], A[1,3], normalesattr, _pkattr_)"
      "relationShip1(Entity1 [0,*], A[1,3], normalesattr, _pkattr_)" ∧
    Parse "relationShip1(Entity1 [0,*], A[1,3], normalesattr, _pkattr_)"
      = .ok ⟨"relationShip1", [⟨⟨none, some "Entity1"⟩, some ⟨"0", "*"⟩⟩,
          ⟨⟨none, some "A"⟩, some ⟨"1", "3"⟩⟩, ⟨⟨none, some "normalesattr"⟩, none⟩,
          ⟨⟨some "pkattr", none⟩, none⟩]⟩ ∧
    Parse "relationShip1(Entity1[0,*], A[1,3], normalesattr, _pkattr_)"
      = Parse "relationShip1(Entity1 [0,*], A[1,3], normalesattr, _pkattr_)" ∧
    withoutPosition (Parse "relationShip1(Entity1[0,*], A[1,3], normalesattr, _pkattr_)")
      = withoutPosition (Parse "relationShip1(Entity1 [0,*], A[1,3], normalesattr, _pkattr_)") := by
  have hb : TokenBoundary "relationShip1(Entity1".data
      "[0,*], A[1,3], normalesattr, _pkattr_)".data :=
    .lexeme "relationShip1".data "(Entity1".data _
      (matchHead_LongestMatch
        (show matchHead ("relationShip1".data ++ ("(Entity1".data ++
            "[0,*], A[1,3], normalesattr, _pkattr_)".data))
          = some (some .Ident, "relationShip1".data, "(Entity1".data ++
            "[0,*], A[1,3], normalesattr, _pkattr_)".data) from by rfl))
      (.lexeme "(".data "Entity1".data _
        (matchHead_LongestMatch
          (show matchHead ("(".data ++ ("Entity1".data ++
              "[0,*], A[1,3], normalesattr, _pkattr_)".data))
            = some (some .Operators, "(".data, "Entity1".data ++
              "[0,*], A[1,3], normalesattr, _pkattr_)".data) from by rfl))
        (.lexeme "Entity1".data [] _
          (matchHead_LongestMatch
            (show matchHead ("Entity1".data ++ ([] ++
                "[0,*], A[1,3], normalesattr, _pkattr_)".data))
              = some (some .Ident, "Entity1".data, [] ++
                "[0,*], A[1,3], normalesattr, _pkattr_)".data) from by rfl))
          (.here _)))
  have hv : WhitespaceVariant "relationShip1(Entity1[0,*], A[1,3], normalesattr, _pkattr_)"
      "relationShip1(Entity1 [0,*], A[1,3], normalesattr, _pkattr_)" :=
    .rel _ _ ⟨"relationShip1(Entity1".data, [' '],
      "[0,*], A[1,3], normalesattr, _pkattr_)".data, by rfl, by rfl, hb, by decide⟩
  exact ⟨hv, by rfl, by rfl, (C16_whitespace_between_tokens _ _ hv).2.2.1⟩

/-- C19: Name() is safe on parsed ASTs.  For every member of the AST of an accepted input
the pointer Name() dereferences is not nil, and Name() is a non-empty identifier: a letter
followed by letters and digits. -/
theorem C19_name_safe (s : String) (ast : ERDExpression) (hp : Parse s = .ok ast) :
    ∀ r ∈ ast.EntitiesAndAttributes,
      (r.RefName.IsPK = true → r.RefName.PK ≠ none) ∧
      (r.RefName.IsPK = false → r.RefName.AttrName ≠ none) ∧
      ∃ x : String, r.Name = some x ∧ r.RefName.Name = some x ∧ x ≠ "" ∧
        lexemeOfKind .Ident x.data = true := by
  intro r hr
  obtain ⟨m, rfl, hwf⟩ := (Parse_ok_members hp).2 r hr
  have hne : m.ident ≠ "" := by
    intro h
    rw [h] at hwf
    revert hwf
    decide
  refine ⟨?_, ?_, m.ident, Member.ref_Name m, Member.ref_Name m, hne, hwf⟩
  · obtain ⟨pk, ident, card⟩ := m
    cases pk <;> simp [Member.ref, Attribute.IsPK]
  · obtain ⟨pk, ident, card⟩ := m
    cases pk <;> simp [Member.ref, Attribute.IsPK]

/-- C19, at `R(a, _b_)`. -/
theorem C19_name_safe_witness :
    Parse "R(a, _b_)" = .ok ⟨"R", [⟨⟨none, some "a"⟩, none⟩, ⟨⟨some "b", none⟩, none⟩]⟩ ∧
    ∀ r ∈ ([⟨⟨none, some "a"⟩, none⟩, ⟨⟨some "b", none⟩, none⟩] : List Ref),
      (r.RefName.IsPK = true → r.RefName.PK ≠ none) ∧
      (r.RefName.IsPK = false → r.RefName.AttrName ≠ none) ∧
      ∃ x : String, r.Name = some x ∧ r.RefName.Name = some x ∧ x ≠ "" ∧
        lexemeOfKind .Ident x.data = true :=
  ⟨by rfl, C19_name_safe "R(a, _b_)" _ (by rfl)⟩

end Erdlib
